import Mathlib

/-!
Verification of the sidemantic-rs semantic-layer core against its
specification.  The Rust sources under `src/core` and `src/sql` are shallowly
embedded: each Rust function becomes a Lean function of the same name, Rust
`HashMap`s become association lists (insertion-ordered; the source iteration
order is unspecified), Rust `HashSet`s become duplicate-free lists, and
fallible functions return `Except SidemanticError`.
-/

namespace Sidemantic

/-! ## Association-list helpers (embedding of `HashMap` as used by the core) -/

/-- Lookup in an association list; embeds `HashMap::get`. -/
def alistGet {α : Type} (l : List (String × α)) (k : String) : Option α :=
  (l.find? (fun p => p.1 == k)).map (·.2)

/-- Insert-or-replace; embeds `HashMap::insert` (value replaced when the key
exists, appended otherwise). -/
def alistInsert {α : Type} (l : List (String × α)) (k : String) (v : α) :
    List (String × α) :=
  match l with
  | [] => [(k, v)]
  | (k', v') :: rest =>
    if k' == k then (k, v) :: rest else (k', v') :: alistInsert rest k v

/-- Append entries to the list stored at a key, creating the entry when
missing; embeds `map.entry(k).or_default().extend(vs)`. -/
def alistAppendAt {α : Type} (l : List (String × List α)) (k : String)
    (vs : List α) : List (String × List α) :=
  match l with
  | [] => [(k, vs)]
  | (k', v') :: rest =>
    if k' == k then (k, v' ++ vs) :: rest else (k', v') :: alistAppendAt rest k vs

/-- Insert into a duplicate-free list; embeds `HashSet::insert`. -/
def hsInsert (l : List String) (s : String) : List String :=
  if l.contains s then l else l ++ [s]

/-- Embeds Rust `str::split(sep)` on a character separator: the pieces
between occurrences of `sep`, in order (always nonempty, `n` separators give
`n + 1` pieces). -/
def splitChar (sep : Char) : List Char → List (List Char)
  | [] => [[]]
  | c :: rest =>
    if c = sep then [] :: splitChar sep rest
    else
      match splitChar sep rest with
      | [] => [[c]]
      | p :: ps => (c :: p) :: ps

/-- Embeds `field.find("__")` followed by `split_at`/`[2..]`: the part
before the first `__` and the part after it, or `none` when there is no
occurrence. -/
def findDoubleUnderscore : List Char → Option (List Char × List Char)
  | [] => none
  | '_' :: '_' :: rest => some ([], rest)
  | c :: rest =>
    (findDoubleUnderscore rest).map (fun p => (c :: p.1, p.2))

/-! ## `src/error.rs` -/

/-- Embeds `SidemanticError` from `src/error.rs`. -/
inductive SidemanticError where
  | ModelNotFound (name : String)
  | DimensionNotFound (model : String) (dimension : String)
  | MetricNotFound (model : String) (metric : String)
  | NoJoinPath (from_ : String) (to_ : String)
  | SqlParse (msg : String)
  | InvalidReference (msg : String)
  | Validation (msg : String)
  deriving Repr, DecidableEq

/-! ## `src/core/model.rs` -/

/-- Embeds `DimensionType`. -/
inductive DimensionType where
  | Categorical | Time | Boolean | Numeric
  deriving Repr, DecidableEq

/-- Embeds `Dimension` (the cosmetic `label`/`description` fields are
omitted; the core never reads them). -/
structure Dimension where
  name : String
  type : DimensionType := .Categorical
  sql : Option String := none
  granularity : Option String := none
  deriving Repr, DecidableEq

/-- Embeds `Dimension::sql_expr`. -/
def Dimension.sql_expr (d : Dimension) : String :=
  d.sql.getD d.name

/-- Embeds `Aggregation` (the variants declared in `src/core/model.rs`). -/
inductive Aggregation where
  | Sum | Count | CountDistinct | Avg | Min | Max | Median
  deriving Repr, DecidableEq

/-- Embeds `Aggregation::as_sql`. -/
def Aggregation.as_sql : Aggregation → String
  | .Sum => "SUM"
  | .Count => "COUNT"
  | .CountDistinct => "COUNT(DISTINCT"
  | .Avg => "AVG"
  | .Min => "MIN"
  | .Max => "MAX"
  | .Median => "MEDIAN"

/-- Embeds `MetricType` (the variants declared in `src/core/model.rs`). -/
inductive MetricType where
  | Simple | Derived | Ratio
  deriving Repr, DecidableEq

/-- Embeds `Metric` (cosmetic `label`/`description` omitted). -/
structure Metric where
  name : String
  type : MetricType := .Simple
  agg : Option Aggregation := some .Sum
  sql : Option String := none
  numerator : Option String := none
  denominator : Option String := none
  filters : List String := []
  deriving Repr, DecidableEq

/-- Embeds `Metric::new`. -/
def Metric.new (name : String) : Metric := { name }

/-- Embeds `Metric::sum`. -/
def Metric.sum (name sql : String) : Metric :=
  { Metric.new name with agg := some .Sum, sql := some sql }

/-- Embeds `Metric::count`. -/
def Metric.count (name : String) : Metric :=
  { Metric.new name with agg := some .Count, sql := some "*" }

/-- Embeds `Metric::count_distinct`. -/
def Metric.count_distinct (name sql : String) : Metric :=
  { Metric.new name with agg := some .CountDistinct, sql := some sql }

/-- Embeds `Metric::avg`. -/
def Metric.avg (name sql : String) : Metric :=
  { Metric.new name with agg := some .Avg, sql := some sql }

/-- Embeds `Metric::derived`. -/
def Metric.derived (name sql : String) : Metric :=
  { Metric.new name with type := .Derived, agg := none, sql := some sql }

/-- Embeds `Metric::ratio`. -/
def Metric.ratio (name numerator denominator : String) : Metric :=
  { Metric.new name with
      type := .Ratio, agg := none,
      numerator := some numerator, denominator := some denominator }

/-- Embeds `Metric::sql_expr`. -/
def Metric.sql_expr (m : Metric) : String :=
  m.sql.getD m.name

/-- Embeds `Metric::to_sql`. -/
def Metric.to_sql (m : Metric) (al : Option String) : String :=
  let pre := (al.map (fun a => a ++ ".")).getD ""
  match m.type with
  | .Simple =>
    let agg := m.agg.getD .Sum
    let sqlExpr := m.sql_expr
    let fullExpr := if sqlExpr == "*" then "*" else pre ++ sqlExpr
    match agg with
    | .CountDistinct => "COUNT(DISTINCT " ++ fullExpr ++ ")"
    | _ => agg.as_sql ++ "(" ++ fullExpr ++ ")"
  | .Derived => m.sql_expr
  | .Ratio =>
    "(" ++ m.numerator.getD "1" ++ ") / NULLIF(" ++ m.denominator.getD "1" ++ ", 0)"

/-- Embeds `RelationshipType`. -/
inductive RelationshipType where
  | ManyToOne | OneToOne | OneToMany | ManyToMany
  deriving Repr, DecidableEq

/-- Embeds `Relationship`. -/
structure Relationship where
  name : String
  type : RelationshipType := .ManyToOne
  foreign_key : Option String := none
  primary_key : Option String := none
  deriving Repr, DecidableEq

/-- Embeds `Relationship::many_to_one`. -/
def Relationship.many_to_one (target : String) : Relationship := { name := target }

/-- Embeds `Relationship::one_to_many`. -/
def Relationship.one_to_many (target : String) : Relationship :=
  { name := target, type := .OneToMany }

/-- Embeds `Relationship::fk`. -/
def Relationship.fk (r : Relationship) : String :=
  r.foreign_key.getD (r.name ++ "_id")

/-- Embeds `Relationship::pk`. -/
def Relationship.pk (r : Relationship) : String :=
  r.primary_key.getD "id"

/-- Embeds `Model` (segments and cosmetic fields omitted; the rewriter and
graph never read them). -/
structure Model where
  name : String
  table : Option String := none
  sql : Option String := none
  primary_key : String
  dimensions : List Dimension := []
  metrics : List Metric := []
  relationships : List Relationship := []
  deriving Repr, DecidableEq

/-- Embeds `Model::table_name`. -/
def Model.table_name (m : Model) : String :=
  m.table.getD m.name

/-- Embeds `Model::table_source`. -/
def Model.table_source (m : Model) : String :=
  match m.sql with
  | some sql => "(" ++ sql ++ ")"
  | none => m.table_name

/-- Embeds `Model::get_dimension`. -/
def Model.get_dimension (m : Model) (name : String) : Option Dimension :=
  m.dimensions.find? (fun d => d.name == name)

/-- Embeds `Model::get_metric`. -/
def Model.get_metric (m : Model) (name : String) : Option Metric :=
  m.metrics.find? (fun mm => mm.name == name)

/-! ## `src/core/graph.rs` -/

/-- Embeds `JoinStep` from `src/core/graph.rs`. -/
structure JoinStep where
  from_model : String
  to_model : String
  from_key : String
  to_key : String
  relationship_type : RelationshipType
  deriving Repr, DecidableEq

/-- Embeds `JoinPath`. -/
structure JoinPath where
  steps : List JoinStep
  deriving Repr, DecidableEq

/-- Embeds `JoinPath::is_empty`. -/
def JoinPath.is_empty (p : JoinPath) : Bool :=
  p.steps.isEmpty

/-- One adjacency entry `(target_model, fk, pk, relationship_type)`. -/
structure AdjEdge where
  target : String
  fk : String
  pk : String
  relationship_type : RelationshipType
  deriving Repr, DecidableEq

/-- Embeds `SemanticGraph`: a `HashMap<String, Model>` of models plus the
derived adjacency index, both as insertion-ordered association lists. -/
structure SemanticGraph where
  models : List (String × Model) := []
  adjacency : List (String × List AdjEdge) := []
  deriving Repr, DecidableEq

/-- Embeds `SemanticGraph::new`. -/
def SemanticGraph.new : SemanticGraph := {}

/-- Embeds `SemanticGraph::get_model`. -/
def SemanticGraph.get_model (g : SemanticGraph) (name : String) : Option Model :=
  alistGet g.models name

/-- Embeds the reverse-`kind` match inside `rebuild_adjacency`. -/
def reverseRelType : RelationshipType → RelationshipType
  | .ManyToOne => .OneToMany
  | .OneToMany => .ManyToOne
  | .OneToOne => .OneToOne
  | .ManyToMany => .ManyToMany

/-- Embeds `SemanticGraph::rebuild_adjacency`: for every model, push its
forward edges under its own name (creating the entry even when it has no
relationships) and a reverse edge under each relationship target. -/
def rebuild_adjacency (models : List (String × Model)) :
    List (String × List AdjEdge) :=
  models.foldl
    (fun adj p =>
      let model := p.2
      let adj := alistAppendAt adj model.name
        (model.relationships.map (fun rel =>
          { target := rel.name, fk := rel.fk, pk := rel.pk,
            relationship_type := rel.type }))
      model.relationships.foldl
        (fun adj rel =>
          alistAppendAt adj rel.name
            [{ target := model.name, fk := rel.pk, pk := rel.fk,
               relationship_type := reverseRelType rel.type }])
        adj)
    []

/-- Embeds `SemanticGraph::add_model`. -/
def SemanticGraph.add_model (g : SemanticGraph) (model : Model) :
    Except SidemanticError SemanticGraph :=
  let name := model.name
  if model.table = none ∧ model.sql = none then
    .error (.Validation
      ("Model '" ++ name ++ "' must have either 'table' or 'sql' defined"))
  else
    let models := alistInsert g.models name model
    .ok { models, adjacency := rebuild_adjacency models }

/-- The adjacency entries of one node; embeds `self.adjacency.get(&current)`
followed by the edge loop (a missing entry yields no edges). -/
def SemanticGraph.edgesOf (g : SemanticGraph) (current : String) : List AdjEdge :=
  (alistGet g.adjacency current).getD []

/-- Embeds the inner `for (target, fk, pk, rel_type) in edges` loop of
`find_join_path`: skips visited targets, returns the finished path as soon as
the destination is reached, otherwise extends the visited set and queue. -/
def process_edges (to_ current : String) (path : List JoinStep) :
    List AdjEdge → List String → List (String × List JoinStep) →
    Option (List JoinStep) × List String × List (String × List JoinStep)
  | [], visited, queue => (none, visited, queue)
  | e :: rest, visited, queue =>
    if visited.contains e.target then
      process_edges to_ current path rest visited queue
    else
      let step : JoinStep :=
        { from_model := current, to_model := e.target,
          from_key := e.fk, to_key := e.pk,
          relationship_type := e.relationship_type }
      let new_path := path ++ [step]
      if e.target == to_ then (some new_path, visited, queue)
      else
        process_edges to_ current path rest (visited ++ [e.target])
          (queue ++ [(e.target, new_path)])

/-- The BFS loop of `find_join_path`, with explicit fuel.  The source loop
terminates because every queue push is paired with a fresh `visited` insert;
`bfsFuel` below is proved sufficient (`bfs_no_fuel_exhaustion`), so the
`none` (fuel exhausted) branch never fires at the call site. -/
def bfs (g : SemanticGraph) (to_ : String) :
    Nat → List String → List (String × List JoinStep) →
    Option (Option (List JoinStep))
  | 0, _, _ => none
  | fuel + 1, visited, queue =>
    match queue with
    | [] => some none
    | (current, path) :: rest =>
      match process_edges to_ current path (g.edgesOf current) visited rest with
      | (some p, _, _) => some (some p)
      | (none, visited', queue') => bfs g to_ fuel visited' queue'

/-- All targets appearing in the adjacency index (with multiplicity); only
these strings can ever be pushed onto the BFS queue. -/
def SemanticGraph.allTargets (g : SemanticGraph) : List String :=
  (g.adjacency.map (fun p => p.2.map (·.target))).flatten

/-- Sufficient BFS fuel: one unit per possible queue entry. -/
def SemanticGraph.bfsFuel (g : SemanticGraph) : Nat :=
  g.allTargets.length + 2

/-- Embeds `SemanticGraph::find_join_path`. -/
def SemanticGraph.find_join_path (g : SemanticGraph) (from_ to_ : String) :
    Except SidemanticError JoinPath :=
  if from_ == to_ then .ok { steps := [] }
  else if (alistGet g.models from_).isNone then .error (.ModelNotFound from_)
  else if (alistGet g.models to_).isNone then .error (.ModelNotFound to_)
  else
    match bfs g to_ g.bfsFuel [from_] [(from_, [])] with
    | some (some steps) => .ok { steps }
    | _ => .error (.NoJoinPath from_ to_)

/-- Embeds `SemanticGraph::parse_reference`. -/
def SemanticGraph.parse_reference (g : SemanticGraph) (reference : String) :
    Except SidemanticError (String × String × Option String) :=
  match splitChar '.' reference.data with
  | [model_chars, field_with_granularity] =>
    let model_name := String.mk model_chars
    let fg : String × Option String :=
      match findDoubleUnderscore field_with_granularity with
      | some p => (String.mk p.1, some (String.mk p.2))
      | none => (String.mk field_with_granularity, none)
    if (alistGet g.models model_name).isNone then
      .error (.ModelNotFound model_name)
    else
      .ok (model_name, fg.1, fg.2)
  | _ =>
    .error (.InvalidReference
      ("Expected 'model.field' format, got '" ++ reference ++ "'"))

/-! ## `src/core/dependency.rs` -/

/-- The operator characters scanned by `has_operators`. -/
def opChars : List Char := ['+', '-', '*', '/', '(', ')', ',', '>', '<', '=']

/-- Embeds `has_operators`. -/
def has_operators (s : String) : Bool :=
  s.data.any (fun c => opChars.contains c)

/-- Embeds Rust `str::trim` (restricted to the ASCII whitespace recognised by
`Char.isWhitespace`; the dependency scanner feeds it SQL fragments). -/
def rustTrim (s : String) : String :=
  String.mk (((s.data.dropWhile Char.isWhitespace).reverse.dropWhile
    Char.isWhitespace).reverse)

/-- Embeds `is_simple_reference`. -/
def is_simple_reference (sql : String) : Bool :=
  let trimmed := rustTrim sql
  trimmed.data.contains '.' && !trimmed.data.contains ' ' && !has_operators trimmed

/-- ASCII upper-casing, written as a map over the character list (extensionally
`String.toUpper`; Lean's `Char.toUpper` shifts exactly `'a'`–`'z'`, which is the
ASCII case folding of Rust's `eq_ignore_ascii_case`/`to_uppercase` on the
keyword and function names compared here). -/
def asciiUpper (s : String) : String :=
  String.mk (s.data.map Char.toUpper)

/-- Embeds `is_keyword` (`eq_ignore_ascii_case` against the fixed list of
upper-case keywords becomes comparison of the upper-cased candidate). -/
def is_keyword (s : String) : Bool :=
  ["SELECT", "FROM", "WHERE", "AND", "OR", "NOT", "NULL", "NULLIF", "CASE",
   "WHEN", "THEN", "ELSE", "END", "AS", "SUM", "COUNT", "AVG", "MIN", "MAX",
   "DISTINCT"].any (fun k => asciiUpper s == k)

/-- Embeds `is_number`, i.e. Rust `s.parse::<f64>().is_ok()`, on the decimal
grammar of `f64::from_str`: optional sign, then `inf`/`infinity`/`nan`
(case-insensitively) or a mantissa with at least one digit and at most one
dot, optionally followed by a signed decimal exponent. -/
def is_number (s : String) : Bool :=
  let afterSign :=
    match s.data with
    | '+' :: rest => rest
    | '-' :: rest => rest
    | l => l
  let lower := afterSign.map Char.toLower
  if lower = "inf".data || lower = "infinity".data || lower = "nan".data then
    true
  else
    let mantissaOk (l : List Char) : Bool :=
      l.any Char.isDigit && l.all (fun c => c.isDigit || c == '.') &&
        l.count '.' ≤ 1
    match afterSign.splitOnP (fun c => c == 'e' || c == 'E') with
    | [m] => mantissaOk m
    | [m, e] =>
      let eDigits := match e with | '+' :: r => r | '-' :: r => r | r => r
      mantissaOk m && !eDigits.isEmpty && eDigits.all Char.isDigit
    | _ => false

/-- One step of the character scanner in `extract_simple_references`: flush
the current run unless it is empty, a keyword, or a number. -/
def flushRef (refs : List String) (current : List Char) : List String :=
  if current.isEmpty || is_keyword (String.mk current) ||
      is_number (String.mk current) then refs
  else hsInsert refs (String.mk current)

/-- The character loop of `extract_simple_references`, carrying the current
identifier run, the single-quote string state and the previous character. -/
def extract_simple_loop :
    List Char → List Char → Bool → Char → List String → List String
  | [], current, _, _, refs => flushRef refs current
  | c :: cs, current, in_string, prev_char, refs =>
    let in_string := if c == '\'' && prev_char != '\\' then !in_string else in_string
    if !in_string then
      if c.isAlphanum || c == '_' || c == '.' then
        extract_simple_loop cs (current ++ [c]) in_string c refs
      else
        extract_simple_loop cs [] in_string c (flushRef refs current)
    else
      extract_simple_loop cs current in_string c refs

/-- Embeds `extract_simple_references`: the lexical fallback scanner that
emits maximal runs of `[A-Za-z0-9_.]`, skipping keywords, numbers and
single-quoted strings. -/
def extract_simple_references (sql : String) : List String :=
  extract_simple_loop sql.data [] false ' ' []

/-- Modelled from the spec: `extract_column_references` parses
`SELECT {sql}` with the external polyglot-sql parser (not part of this
repository) and collects every column/identifier, falling back to
`extract_simple_references` when parsing fails (spec §4.2).  The model uses
the repository's own lexical fallback for both paths; on expression
fragments both emit the same identifier runs. -/
def extract_column_references (sql : String) : List String :=
  extract_simple_references sql

/-- Embeds `resolve_reference`: qualified references pass through, bare names
are qualified by the first model (in iteration order) defining a metric of
that name. -/
def resolve_reference (ref_name : String) (g : SemanticGraph) : String :=
  if ref_name.data.contains '.' then ref_name
  else
    match g.models.find? (fun p => (p.2.get_metric ref_name).isSome) with
    | some p => p.2.name ++ "." ++ ref_name
    | none => ref_name

/-- Embeds `extract_dependencies` (for the `MetricType` variants declared in
`src/core/model.rs`).  The returned `HashSet` is modelled as a duplicate-free
list in insertion order. -/
def extract_dependencies (metric : Metric) (graph : Option SemanticGraph) :
    List String :=
  match metric.type with
  | .Ratio =>
    let deps := match metric.numerator with
      | some num => hsInsert [] num
      | none => []
    match metric.denominator with
    | some denom => hsInsert deps denom
    | none => deps
  | .Derived =>
    match metric.sql with
    | some sql =>
      if is_simple_reference sql then hsInsert [] sql
      else
        let refs := extract_column_references sql
        match graph with
        | some g => refs.foldl (fun deps r => hsInsert deps (resolve_reference r g)) []
        | none => refs
    | none => []
  | .Simple => []

/-- The dependency adjacency map built at the top of
`check_circular_dependencies`. -/
def build_dep_adj (metrics : List (String × Metric)) (g : SemanticGraph) :
    List (String × List String) :=
  metrics.foldl
    (fun adj p => alistInsert adj p.1 (extract_dependencies p.2 (some g))) []

mutual

/-- Embeds the recursive `has_cycle` of `check_circular_dependencies`, with
explicit fuel consumed on every recursive call (one unit per nested `visit`
and one per neighbour-loop step, so both functions are structural on the
fuel; `dfsFuel` below is sufficient, see `dfs_visit_adequate`).  Returns
`(cycle_found, visited, rec_stack)`. -/
def dfs_visit (adj : List (String × List String)) :
    Nat → String → List String → List String →
    Option (Bool × List String × List String)
  | 0, _, _, _ => none
  | fuel + 1, node, visited, rec_stack =>
    let visited := hsInsert visited node
    let rec_stack := hsInsert rec_stack node
    match dfs_visit_list adj fuel ((alistGet adj node).getD []) visited rec_stack with
    | none => none
    | some (true, v, r) => some (true, v, r)
    | some (false, v, r) => some (false, v, r.erase node)

/-- The `for neighbor in neighbors` loop of `has_cycle`. -/
def dfs_visit_list (adj : List (String × List String)) :
    Nat → List String → List String → List String →
    Option (Bool × List String × List String)
  | _, [], visited, rec_stack => some (false, visited, rec_stack)
  | 0, _ :: _, _, _ => none
  | fuel + 1, n :: rest, visited, rec_stack =>
    if !(visited.contains n) then
      match dfs_visit adj fuel n visited rec_stack with
      | none => none
      | some (true, v, r) => some (true, v, r)
      | some (false, v, r) => dfs_visit_list adj fuel rest v r
    else if rec_stack.contains n then some (true, visited, rec_stack)
    else dfs_visit_list adj fuel rest visited rec_stack

end

/-- Every name that can ever be visited by the DFS: the adjacency keys and
all their dependency targets. -/
def dep_nodes (adj : List (String × List String)) : List String :=
  adj.map (·.1) ++ (adj.map (·.2)).flatten

/-- Sufficient DFS fuel: each nested `visit` marks a distinct fresh node and
each loop step either visits a fresh node or shortens the neighbour list, so
`(N + 1) * (N + 1)` steps with `N = (dep_nodes adj).length` always suffice
(proved in `dfs_visit_adequate`). -/
def dfsFuel (adj : List (String × List String)) : Nat :=
  ((dep_nodes adj).length + 1) * ((dep_nodes adj).length + 1)

/-- The root loop of `check_circular_dependencies` (the recursion stack is
empty whenever `has_cycle` has returned `false`, so each root starts from an
empty stack). -/
def check_loop (adj : List (String × List String)) (fuel : Nat) :
    List String → List String → Except String Unit
  | [], _ => .ok ()
  | name :: rest, visited =>
    if visited.contains name then check_loop adj fuel rest visited
    else
      match dfs_visit adj fuel name visited [] with
      | none => .error "unreachable: DFS fuel exhausted"
      | some (true, _, _) =>
        .error ("Circular dependency detected involving metric '" ++ name ++ "'")
      | some (false, v, _) => check_loop adj fuel rest v

/-- Embeds `check_circular_dependencies`. -/
def check_circular_dependencies (metrics : List (String × Metric))
    (g : SemanticGraph) : Except String Unit :=
  let adj := build_dep_adj metrics g
  check_loop adj (dfsFuel adj) (metrics.map (·.1)) []

/-! ## `src/sql/rewriter.rs`

The rewriter consumes the AST of the external polyglot-sql parser.  The AST
is embedded below restricted to the node kinds the rewriter constructs or
inspects; aggregate nodes keep only their argument (the source always builds
them with default `distinct`/`filter`/…), and cosmetic fields (comments,
hints) are dropped throughout. -/

/-- Embeds polyglot-sql `Literal` as used by the rewriter. -/
inductive Literal where
  | Number (s : String)
  | Str (s : String)
  deriving Repr, DecidableEq

/-- Embeds polyglot-sql `TableRef` as used by the rewriter. -/
structure TableRef where
  catalog : Option String := none
  schema : Option String := none
  name : String
  alias_ : Option String := none
  alias_explicit_as : Bool := false
  deriving Repr, DecidableEq

/-- Embeds polyglot-sql `Expression` restricted to the node kinds the
rewriter constructs or inspects. -/
inductive Expression where
  | column (table : Option String) (name : String)
  | identifier (name : String)
  | star
  | literal (lit : Literal)
  | aliasE (this : Expression) (al : String)
  | sumAgg (this : Expression)
  | countAgg (this : Option Expression) (star distinct : Bool)
  | avgAgg (this : Expression)
  | minAgg (this : Expression)
  | maxAgg (this : Expression)
  | medianAgg (this : Expression)
  | aggregateFunction (name : String) (args : List Expression)
  | func (name : String) (args : List Expression)
  | eq (left right : Expression)
  | binaryOp (op : String) (left right : Expression)
  | table (t : TableRef)

/-- Embeds `Expression::qualified_column`. -/
def Expression.qualified_column (al name : String) : Expression :=
  .column (some al) name

/-- Embeds polyglot-sql `JoinKind` (the variants the rewriter meets). -/
inductive JoinKind where
  | Inner | Left | Right | Full
  deriving Repr, DecidableEq

/-- Embeds polyglot-sql `Join` as used by the rewriter (defaulted cosmetic
fields dropped). -/
structure Join where
  this : Expression
  on_ : Option Expression := none
  kind : JoinKind

/-- Embeds polyglot-sql `GroupBy` (just its expression list). -/
structure GroupBy where
  expressions : List Expression

/-- Embeds polyglot-sql `Where`. -/
structure Where where
  this : Expression

/-- Embeds polyglot-sql `From`. -/
structure From where
  expressions : List Expression

/-- Embeds polyglot-sql `Select` restricted to the fields the rewriter
touches (`..select` keeps the rest unchanged). -/
structure Select where
  expressions : List Expression
  from_ : Option From := none
  joins : List Join := []
  where_clause : Option Where := none
  group_by : Option GroupBy := none

mutual

/-- Embeds polyglot-sql `ExpressionWalk::dfs`: the node itself followed by
all descendants, depth first. -/
def Expression.dfsNodes : Expression → List Expression
  | .column t n => [.column t n]
  | .identifier n => [.identifier n]
  | .star => [.star]
  | .literal l => [.literal l]
  | .aliasE e a => .aliasE e a :: e.dfsNodes
  | .sumAgg e => .sumAgg e :: e.dfsNodes
  | .countAgg none s d => [.countAgg none s d]
  | .countAgg (some e) s d => .countAgg (some e) s d :: e.dfsNodes
  | .avgAgg e => .avgAgg e :: e.dfsNodes
  | .minAgg e => .minAgg e :: e.dfsNodes
  | .maxAgg e => .maxAgg e :: e.dfsNodes
  | .medianAgg e => .medianAgg e :: e.dfsNodes
  | .aggregateFunction n args => .aggregateFunction n args :: dfsNodesList args
  | .func n args => .func n args :: dfsNodesList args
  | .eq l r => .eq l r :: (l.dfsNodes ++ r.dfsNodes)
  | .binaryOp o l r => .binaryOp o l r :: (l.dfsNodes ++ r.dfsNodes)
  | .table t => [.table t]

/-- The walk over an argument list (helper of `Expression.dfsNodes`). -/
def dfsNodesList : List Expression → List Expression
  | [] => []
  | e :: es => e.dfsNodes ++ dfsNodesList es

end

mutual

/-- Embeds polyglot-sql `transform_map` (bottom-up rebuild applying the
closure at every node; the rewriter's closure is total, so the `Result`
wrapper is dropped). -/
def Expression.transformMap (f : Expression → Expression) :
    Expression → Expression
  | .column t n => f (.column t n)
  | .identifier n => f (.identifier n)
  | .star => f .star
  | .literal l => f (.literal l)
  | .aliasE e a => f (.aliasE (e.transformMap f) a)
  | .sumAgg e => f (.sumAgg (e.transformMap f))
  | .countAgg none s d => f (.countAgg none s d)
  | .countAgg (some e) s d => f (.countAgg (some (e.transformMap f)) s d)
  | .avgAgg e => f (.avgAgg (e.transformMap f))
  | .minAgg e => f (.minAgg (e.transformMap f))
  | .maxAgg e => f (.maxAgg (e.transformMap f))
  | .medianAgg e => f (.medianAgg (e.transformMap f))
  | .aggregateFunction n args =>
    f (.aggregateFunction n (transformMapList f args))
  | .func n args => f (.func n (transformMapList f args))
  | .eq l r => f (.eq (l.transformMap f) (r.transformMap f))
  | .binaryOp o l r => f (.binaryOp o (l.transformMap f) (r.transformMap f))
  | .table t => f (.table t)

/-- The transform over an argument list (helper of
`Expression.transformMap`). -/
def transformMapList (f : Expression → Expression) :
    List Expression → List Expression
  | [] => []
  | e :: es => e.transformMap f :: transformMapList f es

end

/-- Embeds `QueryRewriter::find_model_references`: the `(model, alias)`
pairs for FROM tables whose name is a graph key. -/
def find_model_references (g : SemanticGraph) (from? : Option From) :
    List (String × String) :=
  match from? with
  | none => []
  | some fr =>
    fr.expressions.foldl
      (fun refs expr =>
        match expr with
        | .table table_ref =>
          if (g.get_model table_ref.name).isSome then
            refs ++ [(table_ref.name, table_ref.alias_.getD table_ref.name)]
          else refs
        | _ => refs)
      []

/-- Embeds `QueryRewriter::collect_model_refs_from_expr`. -/
def collect_model_refs_from_expr (g : SemanticGraph) (expr : Expression)
    (models : List String) : List String :=
  expr.dfsNodes.foldl
    (fun ms node =>
      match node with
      | .column (some t) _ => if (g.get_model t).isSome then hsInsert ms t else ms
      | _ => ms)
    models

/-- Embeds `QueryRewriter::find_referenced_models`. -/
def find_referenced_models (g : SemanticGraph) (projection : List Expression) :
    List String :=
  projection.foldl
    (fun models item =>
      match item with
      | .aliasE inner _ => collect_model_refs_from_expr g inner models
      | _ => collect_model_refs_from_expr g item models)
    []

/-- Modelled from the spec: `parse_sql_fragment` wraps the fragment in
`SELECT …` and parses it with the external polyglot-sql parser (spec §4.3a,
"each side parsed if a fragment"), falling back to `Expression::identifier`
on parse failure.  The model parses the fragment shapes the core feeds it: a
bare identifier becomes an unqualified column, `a.b` a qualified column, and
everything else uses the source's own identifier fallback. -/
def parse_sql_fragment (expr_sql : String) : Expression :=
  let isIdentChar := fun (c : Char) => c.isAlphanum || c == '_'
  if expr_sql.data ≠ [] && expr_sql.data.all isIdentChar then
    .column none expr_sql
  else
    match splitChar '.' expr_sql.data with
    | [a, b] =>
      if a ≠ [] && b ≠ [] && (a ++ b).all isIdentChar then
        .column (some (String.mk a)) (String.mk b)
      else .identifier expr_sql
    | _ => .identifier expr_sql

/-- Embeds `QueryRewriter::metric_to_expr` (for the `MetricType` and
`Aggregation` variants declared in `src/core/model.rs`; the
`Aggregation::Expression` and cumulative/time-comparison arms of the
rewriter match variants absent from that enum and are unrepresentable). -/
def metric_to_expr (metric : Metric) (al : String) : Expression :=
  match metric.type with
  | .Simple =>
    -- the source unwraps `metric.agg`; metrics built by the `Metric`
    -- constructors always carry an aggregation, making the `none` arm dead
    match metric.agg with
    | none => .identifier metric.sql_expr
    | some agg =>
      let use_wildcard := metric.sql == some "*" ||
        (agg == .Count && metric.sql == none)
      if use_wildcard then .countAgg none true false
      else
        let col_expr := Expression.qualified_column al metric.sql_expr
        match agg with
        | .Sum => .sumAgg col_expr
        | .Count => .countAgg (some col_expr) false false
        | .CountDistinct => .countAgg (some col_expr) false true
        | .Avg => .avgAgg col_expr
        | .Min => .minAgg col_expr
        | .Max => .maxAgg col_expr
        | .Median => .medianAgg col_expr
  | .Derived => parse_sql_fragment metric.sql_expr
  | .Ratio => parse_sql_fragment metric.sql_expr

/-- Embeds `QueryRewriter::rewrite_expr`: `transform_map` replacing every
dimension column resolvable through `model_refs` (the closure is total, so
the rewrite always succeeds). -/
def rewrite_expr (g : SemanticGraph) (expr : Expression)
    (model_refs : List (String × String)) : Except SidemanticError Expression :=
  .ok (expr.transformMap (fun node =>
    match node with
    | .column (some table_name) field_name =>
      match model_refs.find? (fun p => p.1 == table_name || p.2 == table_name) with
      | some (actual_model, al) =>
        match g.get_model actual_model with
        | some model =>
          match model.get_dimension field_name with
          | some dimension => Expression.qualified_column al dimension.sql_expr
          | none => node
        | none => node
      | none => node
    | _ => node))

/-- Embeds `QueryRewriter::rewrite_select_expr`. -/
def rewrite_select_expr (g : SemanticGraph) (expr : Expression)
    (model_refs : List (String × String)) : Except SidemanticError Expression :=
  match expr with
  | .column (some model_name) field_name =>
    match model_refs.find? (fun p => p.1 == model_name || p.2 == model_name) with
    | some (actual_model, al) =>
      -- the source unwraps `get_model`; `model_refs` only holds graph keys
      match g.get_model actual_model with
      | some model =>
        match model.get_metric field_name with
        | some metric => .ok (metric_to_expr metric al)
        | none =>
          match model.get_dimension field_name with
          | some dimension =>
            .ok (Expression.qualified_column al dimension.sql_expr)
          | none => .ok expr
      | none => .ok expr
    | none => .ok expr
  | _ => rewrite_expr g expr model_refs

/-- One iteration of the `for item in projection` loop of
`QueryRewriter::rewrite_projection`. -/
def rewrite_projection_item (g : SemanticGraph)
    (model_refs : List (String × String)) (item : Expression) :
    Except SidemanticError Expression :=
  match item with
  | .aliasE inner a =>
    (rewrite_select_expr g inner model_refs).map (fun r => .aliasE r a)
  | .star => .ok .star
  | other => rewrite_select_expr g other model_refs

/-- Embeds `QueryRewriter::rewrite_projection`. -/
def rewrite_projection (g : SemanticGraph) (projection : List Expression)
    (model_refs : List (String × String)) :
    Except SidemanticError (List Expression) :=
  projection.mapM (rewrite_projection_item g model_refs)

/-- Embeds `build_default_join_condition`. -/
def build_default_join_condition (from_al from_key to_al to_key : String) :
    Expression :=
  .eq (Expression.qualified_column from_al from_key)
    (Expression.qualified_column to_al to_key)

/-- Embeds `make_table_ref`. -/
def make_table_ref (full_name : String) : TableRef :=
  match (splitChar '.' full_name.data).map String.mk with
  | [schema, name] => { name, schema := some schema }
  | [catalog, schema, name] => { name, schema := some schema, catalog := some catalog }
  | _ => { name := full_name }

/-- Embeds `make_table_ref_with_alias`. -/
def make_table_ref_with_alias (full_name al : String) : TableRef :=
  { make_table_ref full_name with alias_ := some al, alias_explicit_as := true }

/-- Embeds `QueryRewriter::rewrite_from_with_joins` (the `custom_condition`
branch reads a `JoinStep` field absent from `src/core/graph.rs` and is
unrepresentable; every step takes the default join condition). -/
def rewrite_from_with_joins (g : SemanticGraph) (from? : Option From)
    (existing_joins : List Join) (model_refs : List (String × String))
    (base_model : Option String) (models_to_join : List String) :
    Option From × List Join :=
  match from? with
  | none => (none, existing_joins)
  | some fr =>
    let step := fun (acc : List Expression × List Join) (expr : Expression) =>
      match expr with
      | .table table_ref =>
        match g.get_model table_ref.name with
        | some model =>
          let joins :=
            if base_model == some table_ref.name then
              models_to_join.foldl
                (fun joins target =>
                  match g.find_join_path table_ref.name target with
                  | .ok join_path =>
                    join_path.steps.foldl
                      (fun joins s =>
                        -- the source unwraps `get_model(step.to_model)`;
                        -- reachable join steps end at graph keys
                        match g.get_model s.to_model with
                        | some target_model =>
                          let to_al :=
                            ((model_refs.find? (fun p => p.1 == s.to_model)).map
                              (·.2)).getD s.to_model
                          let from_al :=
                            ((model_refs.find? (fun p => p.1 == s.from_model)).map
                              (·.2)).getD s.from_model
                          let join_condition := build_default_join_condition
                            from_al s.from_key to_al s.to_key
                          joins ++ [{
                            this := .table
                              (make_table_ref_with_alias target_model.table_name to_al),
                            on_ := some join_condition,
                            kind := .Left }]
                        | none => joins)
                      joins
                  | .error _ => joins)
                acc.2
            else acc.2
          let new_table := { make_table_ref model.table_name with
            alias_ := table_ref.alias_,
            alias_explicit_as := table_ref.alias_explicit_as }
          (acc.1 ++ [.table new_table], joins)
        | none => (acc.1 ++ [expr], acc.2)
      | _ => (acc.1 ++ [expr], acc.2)
    let res := fr.expressions.foldl step ([], existing_joins)
    (some { expressions := res.1 }, res.2)

/-- Embeds `is_aggregate_function_name`. -/
def is_aggregate_function_name (name : String) : Bool :=
  ["SUM", "COUNT", "AVG", "MIN", "MAX", "MEDIAN", "COUNT_DISTINCT",
   "STDDEV", "STDDEV_POP", "STDDEV_SAMP", "VARIANCE", "VAR_POP", "VAR_SAMP",
   "CORR", "COVAR_POP", "COVAR_SAMP",
   "REGR_SLOPE", "REGR_INTERCEPT", "REGR_COUNT", "REGR_R2",
   "REGR_AVGX", "REGR_AVGY", "REGR_SXX", "REGR_SYY", "REGR_SXY",
   "PERCENTILE_CONT", "PERCENTILE_DISC", "MODE",
   "BOOL_AND", "BOOL_OR", "EVERY", "BIT_AND", "BIT_OR", "BIT_XOR",
   "ARRAY_AGG", "STRING_AGG", "GROUP_CONCAT", "LISTAGG",
   "COLLECT_LIST", "COLLECT_SET",
   "APPROX_COUNT_DISTINCT", "APPROX_PERCENTILE", "HLL_COUNT_DISTINCT",
   "APPROX_TOP_COUNT",
   "ANY_VALUE", "FIRST_VALUE", "LAST_VALUE",
   "NTH_VALUE", "XMLAGG", "JSON_ARRAYAGG", "JSON_OBJECTAGG"].contains
    (asciiUpper name)

/-- Embeds `QueryRewriter::is_aggregation`. -/
def is_aggregation : Expression → Bool
  | .sumAgg _ => true
  | .countAgg _ _ _ => true
  | .avgAgg _ => true
  | .minAgg _ => true
  | .maxAgg _ => true
  | .medianAgg _ => true
  | .aggregateFunction _ _ => true
  | .func n _ => is_aggregate_function_name n
  | _ => false

/-- The repeated `match item { Alias(a) => &a.this, other => other }` of the
aggregation checks. -/
def unwrapAlias : Expression → Expression
  | .aliasE e _ => e
  | e => e

/-- Embeds `QueryRewriter::has_aggregations`. -/
def has_aggregations (projection : List Expression) : Bool :=
  projection.any (fun item => is_aggregation (unwrapAlias item))

/-- Embeds `QueryRewriter::has_non_aggregated_columns`. -/
def has_non_aggregated_columns (projection : List Expression) : Bool :=
  projection.any (fun item => !is_aggregation (unwrapAlias item))

/-- Embeds `QueryRewriter::build_group_by`: a positional reference for every
non-aggregate projection item, in order. -/
def build_group_by (projection : List Expression) : GroupBy :=
  { expressions := projection.enum.filterMap (fun p =>
      if is_aggregation (unwrapAlias p.2) then none
      else some (.literal (.Number (toString (p.1 + 1))))) }

/-- Embeds the alias assignment for auto-join models (rewriter.rs line 79):
`model_name.chars().next().unwrap_or('t').to_string()` — the first character
of the model name, not lowercased. -/
def autoJoinAlias (model_name : String) : String :=
  String.mk [model_name.data.headD 't']

/-- Embeds lines 77–81 of `rewrite_select`: extend `model_refs` with one
`(model, alias)` pair per auto-join model. -/
def extend_model_refs (model_refs : List (String × String))
    (models_to_join : List String) : List (String × String) :=
  model_refs ++ models_to_join.map (fun m => (m, autoJoinAlias m))

/-- Embeds `QueryRewriter::rewrite_select`. -/
def rewrite_select (g : SemanticGraph) (select : Select) :
    Except SidemanticError Select :=
  let model_refs := find_model_references g select.from_
  if model_refs.isEmpty then .ok select
  else
    let referenced_models :=
      let rm := find_referenced_models g select.expressions
      match select.where_clause with
      | some w => collect_model_refs_from_expr g w.this rm
      | none => rm
    let base_model := (model_refs.head?).map (·.1)
    let models_in_from := model_refs.map (·.1)
    let models_to_join :=
      referenced_models.filter (fun m => !models_in_from.contains m)
    let model_refs := extend_model_refs model_refs models_to_join
    match rewrite_projection g select.expressions model_refs with
    | .error e => .error e
    | .ok expressions =>
      let fj := rewrite_from_with_joins g select.from_ select.joins model_refs
        base_model models_to_join
      let rewritten_where : Except SidemanticError (Option Where) :=
        match select.where_clause with
        | some w => (rewrite_expr g w.this model_refs).map (fun e => some { this := e })
        | none => .ok none
      match rewritten_where with
      | .error e => .error e
      | .ok where_clause =>
        let has_aggs := has_aggregations expressions
        let has_dims := has_non_aggregated_columns expressions
        let group_by :=
          if has_aggs && has_dims then some (build_group_by expressions)
          else select.group_by
        .ok { select with
          expressions, from_ := fj.1, joins := fj.2, where_clause, group_by }

/-- Embeds a parsed top-level statement: only `SELECT` is transformed. -/
inductive Statement where
  | selectS (s : Select)
  | other (raw : String)

/-- Embeds `QueryRewriter::rewrite_top_level`. -/
def rewrite_top_level (g : SemanticGraph) : Statement →
    Except SidemanticError Statement
  | .selectS s => (rewrite_select g s).map .selectS
  | .other raw => .ok (.other raw)

/-! ## Concrete instances used by counterexamples and witnesses -/

/-- The `orders` model of the source's own test graphs. -/
def demoOrders : Model :=
  { name := "orders", table := some "public.orders", primary_key := "order_id",
    dimensions := [{ name := "status" }],
    metrics := [Metric.sum "revenue" "amount", Metric.count "order_count"],
    relationships := [Relationship.many_to_one "customers"] }

/-- The `customers` model of the source's own test graphs. -/
def demoCustomers : Model :=
  { name := "customers", table := some "public.customers", primary_key := "id",
    dimensions := [{ name := "name" }, { name := "country" }] }

/-- The two-model demo graph (`orders` many-to-one `customers`). -/
def gDemo : SemanticGraph :=
  match (SemanticGraph.new.add_model demoOrders).bind
      (fun g => g.add_model demoCustomers) with
  | .ok g => g
  | .error _ => SemanticGraph.new

/-- `orders` with a relationship to a capitalised `Customers` model. -/
def demoOrdersU : Model :=
  { demoOrders with relationships := [Relationship.many_to_one "Customers"] }

/-- A capitalised `Customers` model. -/
def demoCustomersU : Model :=
  { demoCustomers with name := "Customers" }

/-- Demo graph whose auto-join target starts with an upper-case letter. -/
def gDemoU : SemanticGraph :=
  match (SemanticGraph.new.add_model demoOrdersU).bind
      (fun g => g.add_model demoCustomersU) with
  | .ok g => g
  | .error _ => SemanticGraph.new

/-- Two models with no relationship at all (disconnected graph). -/
def gDisconnected : SemanticGraph :=
  match (SemanticGraph.new.add_model
        { name := "a", table := some "ta", primary_key := "id" }).bind
      (fun g => g.add_model { name := "b", table := some "tb", primary_key := "id" }) with
  | .ok g => g
  | .error _ => SemanticGraph.new

/-- `SELECT 1 FROM orders`: a query with no qualified column reference whose
FROM clause nevertheless names a model. -/
def qLiteralFromOrders : Select :=
  { expressions := [.literal (.Number "1")],
    from_ := some { expressions := [.table { name := "orders" }] } }

/-- `SELECT orders.revenue, orders.status FROM orders` (spec scenario 1). -/
def qScenario1 : Select :=
  { expressions := [.column (some "orders") "revenue",
                    .column (some "orders") "status"],
    from_ := some { expressions := [.table { name := "orders" }] } }

/-- `SELECT Customers.country FROM orders`: auto-join of the capitalised
model. -/
def qUpperJoin : Select :=
  { expressions := [.column (some "Customers") "country"],
    from_ := some { expressions := [.table { name := "orders" }] } }

/-- `SELECT x FROM t` over no models at all (passthrough witness). -/
def qPlain : Select :=
  { expressions := [.column none "x"],
    from_ := some { expressions := [.table { name := "t" }] } }

/-- The neighbour list of one node of the dependency adjacency map (a
missing entry has no neighbours). -/
def depAdjL (adj : List (String × List String)) (x : String) : List String :=
  (alistGet adj x).getD []

/-- One edge of the dependency graph over metric names. -/
def depEdge (adj : List (String × List String)) (x y : String) : Prop :=
  y ∈ depAdjL adj x

/-- A directed cycle is reachable from `x` in the dependency graph. -/
def CycleReachable (adj : List (String × List String)) (x : String) : Prop :=
  ∃ y, Relation.ReflTransGen (depEdge adj) x y ∧
    Relation.TransGen (depEdge adj) y y

/-- The number of not-yet-visited entries of `dep_nodes` (the DFS depth
measure). -/
def dfsUnvisited (adj : List (String × List String)) (v : List String) : Nat :=
  ((dep_nodes adj).filter (fun x => !v.contains x)).length

/-- A DFS-finished ("black") node: everything reachable from it is visited
and off the recursion stack, and no cycle is reachable from it. -/
def DepDone (adj : List (String × List String)) (v r : List String)
    (x : String) : Prop :=
  (∀ y, Relation.ReflTransGen (depEdge adj) x y → y ∈ v ∧ y ∉ r) ∧
    ¬ CycleReachable adj x

/-- The DFS state invariant: the recursion stack is visited, and every
visited node off the stack is finished. -/
def DepInv (adj : List (String × List String)) (v r : List String) : Prop :=
  (∀ x ∈ r, x ∈ v) ∧ ∀ x ∈ v, x ∉ r → DepDone adj v r x

/-- Statement of the state-preservation property of `dfs_visit` at a given
fuel (proved by `dfs_preserve`). -/
def DfsVisitPreserveP (adj : List (String × List String)) (fuel : Nat) : Prop :=
  ∀ node v r b v' r', (∀ x ∈ r, x ∈ v) → node ∉ v →
    dfs_visit adj fuel node v r = some (b, v', r') →
    (∀ x ∈ v, x ∈ v') ∧ node ∈ v' ∧ (b = false → r' = r)

/-- Statement of the state-preservation property of `dfs_visit_list` at a
given fuel (proved by `dfs_preserve`). -/
def DfsListPreserveP (adj : List (String × List String)) (fuel : Nat) : Prop :=
  ∀ ns v r b v' r', (∀ x ∈ r, x ∈ v) →
    dfs_visit_list adj fuel ns v r = some (b, v', r') →
    (∀ x ∈ v, x ∈ v') ∧ (b = false → r' = r)

/-- Statement of DFS fuel adequacy for `dfs_visit`: fuel covering
`(N + 1) * unvisited` steps is never exhausted (`N` bounds every neighbour
list, and each nested visit claims a fresh node). -/
def DfsVisitAdequateP (adj : List (String × List String)) (fuel : Nat) : Prop :=
  ∀ node v r, (∀ x ∈ r, x ∈ v) → node ∈ dep_nodes adj → node ∉ v →
    ((dep_nodes adj).length + 1) * dfsUnvisited adj v ≤ fuel →
    dfs_visit adj fuel node v r ≠ none

/-- Statement of DFS fuel adequacy for `dfs_visit_list`. -/
def DfsListAdequateP (adj : List (String × List String)) (fuel : Nat) : Prop :=
  ∀ ns v r, (∀ x ∈ r, x ∈ v) → (∀ n ∈ ns, n ∈ dep_nodes adj) →
    ((dep_nodes adj).length + 1) * dfsUnvisited adj v + ns.length ≤ fuel →
    dfs_visit_list adj fuel ns v r ≠ none

/-- Statement of `true`-soundness for `dfs_visit`: a reported cycle is a
real reachable cycle. -/
def DfsVisitTrueP (adj : List (String × List String)) (fuel : Nat) : Prop :=
  ∀ node v r v' r', (∀ x ∈ r, x ∈ v) → node ∉ v →
    (∀ x ∈ r, Relation.ReflTransGen (depEdge adj) x node) →
    dfs_visit adj fuel node v r = some (true, v', r') →
    CycleReachable adj node

/-- Statement of `true`-soundness for `dfs_visit_list`. -/
def DfsListTrueP (adj : List (String × List String)) (fuel : Nat) : Prop :=
  ∀ cur ns v r v' r', (∀ x ∈ r, x ∈ v) →
    (∀ n ∈ ns, depEdge adj cur n) →
    (∀ x ∈ r, Relation.ReflTransGen (depEdge adj) x cur) →
    dfs_visit_list adj fuel ns v r = some (true, v', r') →
    CycleReachable adj cur

/-- Statement of `false`-safety for `dfs_visit`: a cycle-free visit leaves
every visited node finished. -/
def DfsVisitFalseP (adj : List (String × List String)) (fuel : Nat) : Prop :=
  ∀ node v r v' r', DepInv adj v r → node ∉ v →
    dfs_visit adj fuel node v r = some (false, v', r') →
    (∀ x ∈ v, x ∈ v') ∧ node ∈ v' ∧ r' = r ∧ DepInv adj v' r

/-- Statement of `false`-safety for `dfs_visit_list`. -/
def DfsListFalseP (adj : List (String × List String)) (fuel : Nat) : Prop :=
  ∀ ns v r v' r', DepInv adj v r →
    dfs_visit_list adj fuel ns v r = some (false, v', r') →
    (∀ x ∈ v, x ∈ v') ∧ r' = r ∧ DepInv adj v' r ∧
      ∀ n ∈ ns, DepDone adj v' r n

/-- The two-metric list whose dependency graph is `a → b`, `b → b`. -/
def metricsC9 : List (String × Metric) :=
  [("a", Metric.derived "a" "b"), ("b", Metric.derived "b" "b")]

/-- One hop of the adjacency relation: `v` is the target of some adjacency
entry of `u`. -/
def adjStep (g : SemanticGraph) (u v : String) : Prop :=
  v ∈ (g.edgesOf u).map (·.target)

/-- `v` is connected to `u` by a (possibly empty) sequence of adjacency
edges. -/
def Reaches (g : SemanticGraph) (u v : String) : Prop :=
  Relation.ReflTransGen (adjStep g) u v

/-- There is a walk of exactly `n` adjacency steps from `x` to `y`. -/
def adjPathLen (g : SemanticGraph) : Nat → String → String → Prop
  | 0, x, y => x = y
  | n + 1, x, y => ∃ z, adjStep g x z ∧ adjPathLen g n z y

/-- The loop invariant of the BFS of `find_join_path`, starting at `n0`, for
visited set `v` and queue `q`: every queued path is a real walk of its
recorded length and that length is minimal; the queue holds at most two
consecutive length levels, shorter entries first; queued nodes are visited;
every visited node is queued or fully expanded; and every node within the
head entry's walk length is already visited. -/
structure BfsInv (g : SemanticGraph) (n0 : String) (v : List String)
    (q : List (String × List JoinStep)) : Prop where
  valid : ∀ x ∈ q, adjPathLen g x.2.length n0 x.1
  minimal : ∀ x ∈ q, ∀ m, adjPathLen g m n0 x.1 → x.2.length ≤ m
  sorted : ∀ hd, q.head? = some hd → ∃ q1 q2, q = q1 ++ q2 ∧
    (∀ x ∈ q1, x.2.length = hd.2.length) ∧
    (∀ x ∈ q2, x.2.length = hd.2.length + 1)
  queued_vis : ∀ x ∈ q, x.1 ∈ v
  vis_done : ∀ w ∈ v, (∃ x ∈ q, x.1 = w) ∨ ∀ e ∈ g.edgesOf w, e.target ∈ v
  covered : ∀ hd, q.head? = some hd → ∀ y m, adjPathLen g m n0 y →
    m ≤ hd.2.length → y ∈ v

/-! ## Helper lemmas -/

theorem alistGet_alistInsert_self {α : Type} (l : List (String × α)) (k : String)
    (v : α) : alistGet (alistInsert l k v) k = some v := by
  induction l with
  | nil => simp [alistInsert, alistGet]
  | cons p rest ih =>
    obtain ⟨k', v'⟩ := p
    by_cases h : k' = k
    · simp [alistInsert, alistGet, h]
    · simpa [alistInsert, alistGet, h] using ih

theorem splitChar_ne_nil (sep : Char) (l : List Char) : splitChar sep l ≠ [] := by
  induction l with
  | nil => simp [splitChar]
  | cons c rest ih =>
    by_cases h : c = sep
    · simp [splitChar, h]
    · simp only [splitChar, if_neg h]
      cases hs : splitChar sep rest with
      | nil => exact absurd hs ih
      | cons p ps => simp

theorem splitChar_length (sep : Char) (l : List Char) :
    (splitChar sep l).length = l.count sep + 1 := by
  induction l with
  | nil => simp [splitChar]
  | cons c rest ih =>
    by_cases h : c = sep
    · simp [splitChar, h, List.count_cons, ih]
    · simp only [splitChar, if_neg h]
      cases hs : splitChar sep rest with
      | nil => exact absurd hs (splitChar_ne_nil sep rest)
      | cons p ps =>
        rw [hs] at ih
        simp only [List.length_cons] at ih ⊢
        have hcount : rest.count sep = List.count sep (c :: rest) := by
          simp [List.count_cons, h]
        omega

theorem splitChar_of_not_mem (sep : Char) (l : List Char) (h : sep ∉ l) :
    splitChar sep l = [l] := by
  induction l with
  | nil => simp [splitChar]
  | cons c rest ih =>
    have hc : c ≠ sep := fun hc => h (hc ▸ List.mem_cons_self c rest)
    have hr : sep ∉ rest := fun hr => h (List.mem_cons_of_mem c hr)
    simp [splitChar, hc, ih hr]

theorem splitChar_append (sep : Char) (a b : List Char) (ha : sep ∉ a) :
    splitChar sep (a ++ sep :: b) = a :: splitChar sep b := by
  induction a with
  | nil => simp [splitChar]
  | cons c rest ih =>
    have hc : c ≠ sep := fun hc => ha (hc ▸ List.mem_cons_self c rest)
    have hr : sep ∉ rest := fun hr => ha (List.mem_cons_of_mem c hr)
    simp only [List.cons_append, splitChar, if_neg hc, List.append_eq, ih hr]

theorem splitChar_pair (sep : Char) (a b : List Char) (ha : sep ∉ a)
    (hb : sep ∉ b) : splitChar sep (a ++ sep :: b) = [a, b] := by
  rw [splitChar_append sep a b ha, splitChar_of_not_mem sep b hb]

theorem findDoubleUnderscore_of_no_occurrence (l : List Char)
    (h : ∀ x y, l ≠ x ++ '_' :: '_' :: y) : findDoubleUnderscore l = none := by
  induction l using findDoubleUnderscore.induct with
  | case1 => rfl
  | case2 rest => exact absurd rfl (h [] rest)
  | case3 c rest hne ih =>
    have hrest : ∀ x y, rest ≠ x ++ '_' :: '_' :: y := by
      intro x y hxy
      exact h (c :: x) y (by simp [hxy])
    simp only [findDoubleUnderscore, ih hrest, Option.map_none']

theorem findDoubleUnderscore_first (l b a : List Char)
    (hl : l = b ++ '_' :: '_' :: a)
    (hmin : ∀ x y, l = x ++ '_' :: '_' :: y → b.length ≤ x.length) :
    findDoubleUnderscore l = some (b, a) := by
  induction l using findDoubleUnderscore.induct generalizing b with
  | case1 => simp at hl
  | case2 rest =>
    have hb : b = [] := by
      have := hmin [] rest rfl
      simpa using List.length_eq_zero.mp (Nat.le_zero.mp this)
    subst hb
    simp only [List.nil_append] at hl
    obtain ⟨-, -, ha⟩ := List.cons.inj hl |>.imp id (fun h => List.cons.inj h)
    simp_all [findDoubleUnderscore]
  | case3 c rest hne ih =>
    match b, hl with
    | [], hl =>
      simp only [List.nil_append] at hl
      exact ((hne a (List.cons.inj hl).1 (List.cons.inj hl).2).elim :
        findDoubleUnderscore (c :: rest) = some ([], a))
    | b0 :: b', hl =>
      simp only [List.cons_append] at hl
      obtain ⟨hc, hrest⟩ := List.cons.inj hl
      subst hc
      have hmin' : ∀ x y, rest = x ++ '_' :: '_' :: y → b'.length ≤ x.length := by
        intro x y hxy
        simpa using hmin (c :: x) y (by simp [hxy])
      have hfdu := ih b' hrest hmin'
      show findDoubleUnderscore (c :: rest) = some (c :: b', a)
      unfold findDoubleUnderscore
      split
      · simp_all
      · rename_i heq
        exact ((hne _ (List.cons.inj heq).1 (List.cons.inj heq).2).elim :
          some ([], _) = some (c :: b', a))
      · rename_i c' rest' heq
        obtain ⟨hc', hrest'⟩ := List.cons.inj heq
        subst hc'
        subst hrest'
        rw [hfdu]
        rfl

theorem mem_hsInsert (l : List String) (s x : String) :
    x ∈ hsInsert l s ↔ x ∈ l ∨ x = s := by
  by_cases hs : s ∈ l
  · simp only [hsInsert]
    rw [if_pos (by simpa using hs)]
    constructor
    · exact Or.inl
    · rintro (hx | rfl)
      · exact hx
      · exact hs
  · simp only [hsInsert]
    rw [if_neg (by simpa using hs)]
    simp

theorem dropWhile_eq_self_of_forall {p : Char → Bool} (l : List Char)
    (h : ∀ c ∈ l, p c = false) : l.dropWhile p = l := by
  cases l with
  | nil => rfl
  | cons c rest => simp [List.dropWhile, h c (List.mem_cons_self c rest)]

theorem rustTrim_eq_self (s : String) (h : ∀ c ∈ s.data, c.isWhitespace = false) :
    rustTrim s = s := by
  unfold rustTrim
  rw [dropWhile_eq_self_of_forall s.data h,
    dropWhile_eq_self_of_forall s.data.reverse (fun c hc => h c (List.mem_reverse.mp hc)),
    List.reverse_reverse]

theorem findDoubleUnderscore_none_no_occ (l : List Char)
    (h : findDoubleUnderscore l = none) :
    ∀ x y, l ≠ x ++ '_' :: '_' :: y := by
  induction l using findDoubleUnderscore.induct with
  | case1 =>
    intro x y hxy
    exact absurd hxy.symm (List.append_ne_nil_of_right_ne_nil x (by simp))
  | case2 rest => simp [findDoubleUnderscore] at h
  | case3 c rest hne ih =>
    simp only [findDoubleUnderscore, Option.map_eq_none'] at h
    intro x y hxy
    match x, hxy with
    | [], hxy =>
      simp only [List.nil_append] at hxy
      exact hne y (List.cons.inj hxy).1 (List.cons.inj hxy).2
    | x0 :: x', hxy =>
      simp only [List.cons_append] at hxy
      exact ih h x' y (List.cons.inj hxy).2

theorem findDoubleUnderscore_some_spec (l b a : List Char)
    (h : findDoubleUnderscore l = some (b, a)) :
    l = b ++ '_' :: '_' :: a ∧
      ∀ x y, l = x ++ '_' :: '_' :: y → b.length ≤ x.length := by
  induction l using findDoubleUnderscore.induct generalizing b with
  | case1 => simp [findDoubleUnderscore] at h
  | case2 rest =>
    simp only [findDoubleUnderscore, Option.some.injEq, Prod.mk.injEq] at h
    obtain ⟨hb, ha⟩ := h
    subst hb; subst ha
    exact ⟨rfl, fun x y _ => by simp⟩
  | case3 c rest hne ih =>
    simp only [findDoubleUnderscore, Option.map_eq_some'] at h
    obtain ⟨⟨b', a'⟩, hfdu, heq⟩ := h
    simp only [Prod.mk.injEq] at heq
    obtain ⟨hb, ha⟩ := heq
    subst ha
    obtain ⟨hrest, hmin'⟩ := ih b' hfdu
    subst hb
    refine ⟨by simp [hrest], ?_⟩
    intro x y hxy
    match x, hxy with
    | [], hxy =>
      simp only [List.nil_append] at hxy
      exact (hne y (List.cons.inj hxy).1 (List.cons.inj hxy).2).elim
    | x0 :: x', hxy =>
      simp only [List.cons_append] at hxy
      have := hmin' x' y (List.cons.inj hxy).2
      simp only [List.length_cons]
      omega

theorem process_edges_found {to_ cur : String} {path : List JoinStep}
    {es : List AdjEdge} {v : List String} {q : List (String × List JoinStep)}
    {p : List JoinStep} {v' : List String} {q' : List (String × List JoinStep)}
    (h : process_edges to_ cur path es v q = (some p, v', q')) :
    ∃ e ∈ es, e.target = to_ := by
  induction es generalizing path v q with
  | nil => simp [process_edges] at h
  | cons e rest ih =>
    simp only [process_edges] at h
    by_cases hv : v.contains e.target
    · rw [if_pos hv] at h
      obtain ⟨e', he', ht⟩ := ih h
      exact ⟨e', List.mem_cons_of_mem e he', ht⟩
    · rw [if_neg hv] at h
      by_cases hto : e.target == to_
      · exact ⟨e, List.mem_cons_self e rest, eq_of_beq hto⟩
      · rw [if_neg (by simpa using hto)] at h
        obtain ⟨e', he', ht⟩ := ih h
        exact ⟨e', List.mem_cons_of_mem e he', ht⟩

theorem process_edges_none_queue {to_ cur : String} {path : List JoinStep}
    {es : List AdjEdge} {v : List String} {q : List (String × List JoinStep)}
    {v' : List String} {q' : List (String × List JoinStep)}
    (h : process_edges to_ cur path es v q = (none, v', q')) :
    ∀ x ∈ q', x ∈ q ∨ ∃ e ∈ es, e.target = x.1 := by
  induction es generalizing path v q with
  | nil =>
    simp only [process_edges, Prod.mk.injEq] at h
    intro x hx
    exact Or.inl (h.2.2 ▸ hx)
  | cons e rest ih =>
    simp only [process_edges] at h
    by_cases hv : v.contains e.target
    · rw [if_pos hv] at h
      intro x hx
      rcases ih h x hx with hq | ⟨e', he', ht⟩
      · exact Or.inl hq
      · exact Or.inr ⟨e', List.mem_cons_of_mem e he', ht⟩
    · rw [if_neg hv] at h
      by_cases hto : e.target == to_
      · rw [if_pos hto] at h
        exact absurd h (by simp)
      · rw [if_neg (by simpa using hto)] at h
        intro x hx
        rcases ih h x hx with hq | ⟨e', he', ht⟩
        · rcases List.mem_append.mp hq with hq | hq
          · exact Or.inl hq
          · refine Or.inr ⟨e, List.mem_cons_self e rest, ?_⟩
            simp only [List.mem_singleton] at hq
            rw [hq]
        · exact Or.inr ⟨e', List.mem_cons_of_mem e he', ht⟩

theorem bfs_sound (g : SemanticGraph) (to_ n0 : String) :
    ∀ (fuel : Nat) (v : List String) (q : List (String × List JoinStep)),
      (∀ x ∈ q, Reaches g n0 x.1) →
      ∀ p : List JoinStep, bfs g to_ fuel v q = some (some p) →
        Reaches g n0 to_ := by
  intro fuel
  induction fuel with
  | zero => intro v q _ p h; simp [bfs] at h
  | succ fuel ih =>
    intro v q hq p h
    match hq0 : q with
    | [] => simp [bfs] at h
    | (cur, path) :: rest =>
      simp only [bfs] at h
      match hpe : process_edges to_ cur path (g.edgesOf cur) v rest with
      | (some p', v', q') =>
        rw [hpe] at h
        obtain ⟨e, he, ht⟩ := process_edges_found hpe
        have hcur : Reaches g n0 cur := hq (cur, path) (List.mem_cons_self _ _)
        exact hcur.tail (ht ▸ (List.mem_map_of_mem (·.target) he) : adjStep g cur to_)
      | (none, v', q') =>
        rw [hpe] at h
        refine ih v' q' ?_ p h
        intro x hx
        rcases process_edges_none_queue hpe x hx with hmem | ⟨e, he, ht⟩
        · exact hq x (List.mem_cons_of_mem _ hmem)
        · have hcur : Reaches g n0 cur := hq (cur, path) (List.mem_cons_self _ _)
          exact hcur.tail (ht ▸ (List.mem_map_of_mem (·.target) he) : adjStep g cur x.1)

theorem mem_getD_alistAppendAt {α : Type} (l : List (String × List α))
    (k k' : String) (vs : List α) (x : α) :
    (x ∈ (alistGet (alistAppendAt l k vs) k').getD []) ↔
      (x ∈ (alistGet l k').getD []) ∨ (k' = k ∧ x ∈ vs) := by
  induction l with
  | nil =>
    by_cases h : k = k'
    · subst h
      simp [alistAppendAt, alistGet]
    · have h' : ¬ (k' = k) := fun hh => h hh.symm
      have hb : (k == k') = false := by simpa using h
      simp [alistAppendAt, alistGet, List.find?, hb, h']
  | cons pr rest ih =>
    obtain ⟨k'', v''⟩ := pr
    by_cases h1 : k'' = k
    · subst h1
      by_cases h2 : k'' = k'
      · subst h2
        simp [alistAppendAt, alistGet, List.find?]
      · have h2' : ¬ (k' = k'') := fun hh => h2 hh.symm
        have hb2 : (k'' == k') = false := by simpa using h2
        simp [alistAppendAt, alistGet, List.find?, hb2, h2']
    · by_cases h2 : k'' = k'
      · subst h2
        have hb1 : (k'' == k) = false := by simpa using h1
        simp [alistAppendAt, alistGet, List.find?, hb1, h1]
      · have hb1 : (k'' == k) = false := by simpa using h1
        have hb2 : (k'' == k') = false := by simpa using h2
        have e1 : alistAppendAt ((k'', v'') :: rest) k vs
            = (k'', v'') :: alistAppendAt rest k vs := by
          simp [alistAppendAt, hb1]
        have e2 : ∀ (m : List (String × List α)),
            alistGet ((k'', v'') :: m) k' = alistGet m k' := by
          intro m
          simp [alistGet, List.find?, hb2]
        rw [e1, e2, e2]
        exact ih

theorem mem_rev_fold (mn u w : String) :
    ∀ (rels : List Relationship) (acc : List (String × List AdjEdge)),
      (∃ e ∈ (alistGet (rels.foldl
          (fun adj rel =>
            alistAppendAt adj rel.name
              [{ target := mn, fk := rel.pk, pk := rel.fk,
                 relationship_type := reverseRelType rel.type }])
          acc) u).getD [], e.target = w) ↔
      ((∃ e ∈ (alistGet acc u).getD [], e.target = w) ∨
        (w = mn ∧ ∃ rel ∈ rels, rel.name = u)) := by
  intro rels
  induction rels with
  | nil => intro acc; simp
  | cons rel rrest ih =>
    intro acc
    rw [List.foldl_cons, ih]
    have hstep : (∃ e ∈ (alistGet (alistAppendAt acc rel.name
        [{ target := mn, fk := rel.pk, pk := rel.fk,
           relationship_type := reverseRelType rel.type }]) u).getD [],
          e.target = w) ↔
        ((∃ e ∈ (alistGet acc u).getD [], e.target = w) ∨
          (u = rel.name ∧ w = mn)) := by
      constructor
      · rintro ⟨e, he, het⟩
        rcases (mem_getD_alistAppendAt acc rel.name u _ e).mp he with hacc | ⟨hu, hmem⟩
        · exact Or.inl ⟨e, hacc, het⟩
        · refine Or.inr ⟨hu, ?_⟩
          simp only [List.mem_singleton] at hmem
          rw [← het, hmem]
      · rintro (⟨e, he, het⟩ | ⟨hu, hw⟩)
        · exact ⟨e, (mem_getD_alistAppendAt acc rel.name u _ e).mpr (Or.inl he), het⟩
        · exact ⟨{ target := mn, fk := rel.pk, pk := rel.fk,
                   relationship_type := reverseRelType rel.type },
            (mem_getD_alistAppendAt acc rel.name u _ _).mpr
              (Or.inr ⟨hu, List.mem_singleton_self _⟩), hw.symm⟩
    rw [hstep]
    simp only [List.exists_mem_cons_iff]
    constructor
    · rintro ((hA | ⟨hu, hw⟩) | ⟨hw, rel', hrel', hn⟩)
      · exact Or.inl hA
      · exact Or.inr ⟨hw, Or.inl hu.symm⟩
      · exact Or.inr ⟨hw, Or.inr ⟨rel', hrel', hn⟩⟩
    · rintro (hA | ⟨hw, hn | ⟨rel', hrel', hn⟩⟩)
      · exact Or.inl (Or.inl hA)
      · exact Or.inl (Or.inr ⟨hn.symm, hw⟩)
      · exact Or.inr ⟨hw, rel', hrel', hn⟩

theorem mem_adj_model_step (u w : String) (acc : List (String × List AdjEdge))
    (mdl : Model) :
    (∃ e ∈ (alistGet (mdl.relationships.foldl
        (fun adj rel =>
          alistAppendAt adj rel.name
            [{ target := mdl.name, fk := rel.pk, pk := rel.fk,
               relationship_type := reverseRelType rel.type }])
        (alistAppendAt acc mdl.name
          (mdl.relationships.map (fun rel =>
            { target := rel.name, fk := rel.fk, pk := rel.pk,
              relationship_type := rel.type })))) u).getD [], e.target = w) ↔
    ((∃ e ∈ (alistGet acc u).getD [], e.target = w) ∨
      ((u = mdl.name ∧ ∃ rel ∈ mdl.relationships, rel.name = w) ∨
        (w = mdl.name ∧ ∃ rel ∈ mdl.relationships, rel.name = u))) := by
  rw [mem_rev_fold]
  have hfwd : (∃ e ∈ (alistGet (alistAppendAt acc mdl.name
      (mdl.relationships.map (fun rel =>
        ({ target := rel.name, fk := rel.fk, pk := rel.pk,
           relationship_type := rel.type } : AdjEdge)))) u).getD [],
        e.target = w) ↔
      ((∃ e ∈ (alistGet acc u).getD [], e.target = w) ∨
        (u = mdl.name ∧ ∃ rel ∈ mdl.relationships, rel.name = w)) := by
    constructor
    · rintro ⟨e, he, het⟩
      rcases (mem_getD_alistAppendAt acc mdl.name u _ e).mp he with hacc | ⟨hu, hmem⟩
      · exact Or.inl ⟨e, hacc, het⟩
      · refine Or.inr ⟨hu, ?_⟩
        obtain ⟨rel, hrel, hre⟩ := List.mem_map.mp hmem
        refine ⟨rel, hrel, ?_⟩
        rw [← het, ← hre]
    · rintro (⟨e, he, het⟩ | ⟨hu, rel, hrel, hname⟩)
      · exact ⟨e, (mem_getD_alistAppendAt acc mdl.name u _ e).mpr (Or.inl he), het⟩
      · exact ⟨{ target := rel.name, fk := rel.fk, pk := rel.pk,
                 relationship_type := rel.type },
          (mem_getD_alistAppendAt acc mdl.name u _ _).mpr
            (Or.inr ⟨hu, List.mem_map_of_mem _ hrel⟩), hname⟩
  rw [hfwd]
  exact or_assoc

theorem mem_rebuild_fold (u w : String) :
    ∀ (ms : List (String × Model)) (acc : List (String × List AdjEdge)),
      (∃ e ∈ (alistGet (ms.foldl
          (fun adj p =>
            let model := p.2
            let adj := alistAppendAt adj model.name
              (model.relationships.map (fun rel =>
                { target := rel.name, fk := rel.fk, pk := rel.pk,
                  relationship_type := rel.type }))
            model.relationships.foldl
              (fun adj rel =>
                alistAppendAt adj rel.name
                  [{ target := model.name, fk := rel.pk, pk := rel.fk,
                     relationship_type := reverseRelType rel.type }])
              adj)
          acc) u).getD [], e.target = w) ↔
      ((∃ e ∈ (alistGet acc u).getD [], e.target = w) ∨
        ∃ p ∈ ms, (u = p.2.name ∧ ∃ rel ∈ p.2.relationships, rel.name = w) ∨
          (w = p.2.name ∧ ∃ rel ∈ p.2.relationships, rel.name = u)) := by
  intro ms
  induction ms with
  | nil => intro acc; simp
  | cons p prest ih =>
    intro acc
    rw [List.foldl_cons]
    simp only [ih, mem_adj_model_step]
    simp only [List.exists_mem_cons_iff]
    exact or_assoc

theorem mem_rebuild_adjacency (ms : List (String × Model)) (u w : String) :
    (∃ e ∈ (alistGet (rebuild_adjacency ms) u).getD [], e.target = w) ↔
      ∃ p ∈ ms, (u = p.2.name ∧ ∃ rel ∈ p.2.relationships, rel.name = w) ∨
        (w = p.2.name ∧ ∃ rel ∈ p.2.relationships, rel.name = u) := by
  unfold rebuild_adjacency
  rw [mem_rebuild_fold]
  simp [alistGet]

theorem adjStep_symm (g : SemanticGraph)
    (hadj : g.adjacency = rebuild_adjacency g.models) {u w : String}
    (h : adjStep g u w) : adjStep g w u := by
  unfold adjStep SemanticGraph.edgesOf at h ⊢
  rw [hadj] at h ⊢
  rw [List.mem_map] at h ⊢
  obtain ⟨e, he, het⟩ := h
  have h1 : ∃ e ∈ (alistGet (rebuild_adjacency g.models) u).getD [],
      e.target = w := ⟨e, he, het⟩
  rw [mem_rebuild_adjacency] at h1
  have h2 : ∃ p ∈ g.models,
      (w = p.2.name ∧ ∃ rel ∈ p.2.relationships, rel.name = u) ∨
      (u = p.2.name ∧ ∃ rel ∈ p.2.relationships, rel.name = w) := by
    obtain ⟨p, hp, hor⟩ := h1
    exact ⟨p, hp, hor.symm⟩
  rw [← mem_rebuild_adjacency] at h2
  obtain ⟨e', he', het'⟩ := h2
  exact ⟨e', he', het'⟩

theorem adjPathLen_snoc (g : SemanticGraph) :
    ∀ (n : Nat) (x w y : String), adjPathLen g n x w → adjStep g w y →
      adjPathLen g (n + 1) x y := by
  intro n
  induction n with
  | zero =>
    intro x w y hp hs
    have hx : x = w := hp
    subst hx
    exact ⟨y, hs, rfl⟩
  | succ n ih =>
    intro x w y hp hs
    obtain ⟨z, hxz, hzw⟩ := hp
    exact ⟨z, hxz, ih z w y hzw hs⟩

theorem adjPathLen_snoc_inv (g : SemanticGraph) :
    ∀ (n : Nat) (x y : String), adjPathLen g (n + 1) x y →
      ∃ w, adjPathLen g n x w ∧ adjStep g w y := by
  intro n
  induction n with
  | zero =>
    intro x y hp
    obtain ⟨z, hxz, hzy⟩ := hp
    have hz : z = y := hzy
    subst hz
    exact ⟨x, rfl, hxz⟩
  | succ n ih =>
    intro x y hp
    obtain ⟨z, hxz, hzy⟩ := hp
    obtain ⟨w, hzw, hwy⟩ := ih z y hzy
    exact ⟨w, ⟨z, hxz, hzw⟩, hwy⟩

theorem adjPathLen_symm (g : SemanticGraph)
    (hadj : g.adjacency = rebuild_adjacency g.models) :
    ∀ (n : Nat) (x y : String), adjPathLen g n x y → adjPathLen g n y x := by
  intro n
  induction n with
  | zero =>
    intro x y h
    exact (show x = y from h).symm
  | succ n ih =>
    intro x y h
    obtain ⟨z, hxz, hzy⟩ := h
    exact adjPathLen_snoc g n y z x (ih z y hzy) (adjStep_symm g hadj hxz)

theorem process_edges_found_spec {to_ cur : String} {path : List JoinStep}
    {es : List AdjEdge} {v : List String} {q : List (String × List JoinStep)}
    {p' : List JoinStep} {v' : List String} {q' : List (String × List JoinStep)}
    (h : process_edges to_ cur path es v q = (some p', v', q')) :
    p'.length = path.length + 1 ∧ (∃ e ∈ es, e.target = to_) ∧ to_ ∉ v := by
  induction es generalizing v q with
  | nil => simp [process_edges] at h
  | cons e rest ih =>
    simp only [process_edges] at h
    by_cases hv : v.contains e.target
    · rw [if_pos hv] at h
      obtain ⟨hl, ⟨e', he', ht⟩, hnv⟩ := ih h
      exact ⟨hl, ⟨e', List.mem_cons_of_mem e he', ht⟩, hnv⟩
    · rw [if_neg hv] at h
      by_cases hto : e.target == to_
      · rw [if_pos hto] at h
        simp only [Prod.mk.injEq, Option.some.injEq] at h
        obtain ⟨hp, -, -⟩ := h
        refine ⟨by rw [← hp]; simp, ⟨e, List.mem_cons_self e rest, eq_of_beq hto⟩, ?_⟩
        have het := eq_of_beq hto
        rw [← het]
        simpa using hv
      · rw [if_neg (by simpa using hto)] at h
        obtain ⟨hl, ⟨e', he', ht⟩, hnv⟩ := ih h
        refine ⟨hl, ⟨e', List.mem_cons_of_mem e he', ht⟩, fun hm => hnv ?_⟩
        exact List.mem_append_left _ hm

theorem process_edges_none_spec {to_ cur : String} {path : List JoinStep}
    {es : List AdjEdge} {v : List String} {q : List (String × List JoinStep)}
    {v' : List String} {q' : List (String × List JoinStep)}
    (h : process_edges to_ cur path es v q = (none, v', q')) :
    ∃ dq, q' = q ++ dq ∧ v' = v ++ dq.map (·.1) ∧
      (∀ x ∈ dq, x.1 ∉ v ∧ x.2.length = path.length + 1 ∧
        ∃ e ∈ es, e.target = x.1) ∧
      (∀ e ∈ es, e.target ∈ v') := by
  induction es generalizing v q with
  | nil =>
    simp only [process_edges, Prod.mk.injEq] at h
    obtain ⟨-, hv, hq⟩ := h
    subst hv
    subst hq
    exact ⟨[], by simp, by simp, by simp, by simp⟩
  | cons e rest ih =>
    simp only [process_edges] at h
    by_cases hv : v.contains e.target
    · rw [if_pos hv] at h
      obtain ⟨dq, hq, hvv, hprops, hexp⟩ := ih h
      refine ⟨dq, hq, hvv, ?_, ?_⟩
      · intro x hx
        obtain ⟨h1, h2, e', he', ht⟩ := hprops x hx
        exact ⟨h1, h2, e', List.mem_cons_of_mem e he', ht⟩
      · intro e' he'
        rcases List.mem_cons.mp he' with rfl | he'
        · rw [hvv]
          exact List.mem_append_left _ (by simpa using hv)
        · exact hexp e' he'
    · rw [if_neg hv] at h
      by_cases hto : e.target == to_
      · rw [if_pos hto] at h
        simp at h
      · rw [if_neg (by simpa using hto)] at h
        obtain ⟨dq', hq, hvv, hprops, hexp⟩ := ih h
        refine ⟨(e.target, path ++
            [{ from_model := cur, to_model := e.target, from_key := e.fk,
               to_key := e.pk, relationship_type := e.relationship_type }]) :: dq',
          ?_, ?_, ?_, ?_⟩
        · rw [hq]
          simp
        · rw [hvv]
          simp
        · intro x hx
          rcases List.mem_cons.mp hx with rfl | hx
          · exact ⟨by simpa using hv, by simp,
              ⟨e, List.mem_cons_self e rest, rfl⟩⟩
          · obtain ⟨h1, h2, e', he', ht⟩ := hprops x hx
            exact ⟨fun hm => h1 (List.mem_append_left _ hm), h2,
              e', List.mem_cons_of_mem e he', ht⟩
        · intro e' he'
          rcases List.mem_cons.mp he' with rfl | he'
          · rw [hvv]
            exact List.mem_append_left _ (List.mem_append_right _ (by simp))
          · exact hexp e' he'

theorem bfsInv_init (g : SemanticGraph) (n0 : String) :
    BfsInv g n0 [n0] [(n0, [])] := by
  refine ⟨?_, ?_, ?_, ?_, ?_, ?_⟩
  · intro x hx
    simp only [List.mem_singleton] at hx
    subst hx
    exact rfl
  · intro x hx m hm
    simp only [List.mem_singleton] at hx
    subst hx
    simp
  · intro hd hhd
    simp only [List.head?_cons, Option.some.injEq] at hhd
    subst hhd
    refine ⟨[(n0, [])], [], by simp, ?_, by simp⟩
    intro x hx
    simp only [List.mem_singleton] at hx
    subst hx
    rfl
  · intro x hx
    simp only [List.mem_singleton] at hx
    subst hx
    simp
  · intro w hw
    simp only [List.mem_singleton] at hw
    subst hw
    exact Or.inl ⟨(w, []), by simp, rfl⟩
  · intro hd hhd y m hm hmle
    simp only [List.head?_cons, Option.some.injEq] at hhd
    subst hhd
    simp only [List.length_nil, Nat.le_zero] at hmle
    subst hmle
    have hy : n0 = y := hm
    subst hy
    simp

theorem bfs_inv_step (g : SemanticGraph) (n0 to_ cur : String)
    (path : List JoinStep) (rest : List (String × List JoinStep))
    (v v' : List String) (q' : List (String × List JoinStep))
    (hInv : BfsInv g n0 v ((cur, path) :: rest))
    (hpe : process_edges to_ cur path (g.edgesOf cur) v rest = (none, v', q')) :
    BfsInv g n0 v' q' := by
  obtain ⟨dq, hq', hv', hprops, hexp⟩ := process_edges_none_spec hpe
  subst hq'
  subst hv'
  have hcurv : adjPathLen g path.length n0 cur :=
    hInv.valid (cur, path) (List.mem_cons_self _ _)
  have hhead : ((cur, path) :: rest).head? = some (cur, path) := rfl
  obtain ⟨q1, q2, hsplit, h1, h2⟩ := hInv.sorted (cur, path) hhead
  cases q1 with
  | nil =>
    simp only [List.nil_append] at hsplit
    have hcontra : path.length = path.length + 1 :=
      h2 (cur, path) (hsplit ▸ List.mem_cons_self _ _)
    omega
  | cons hd1 q1' =>
  rw [List.cons_append] at hsplit
  injection hsplit with hhd1 hrest
  subst hhd1
  subst hrest
  have hmono : ∀ x ∈ v, x ∈ v ++ dq.map (·.1) :=
    fun x hx => List.mem_append_left _ hx
  have hql : ∀ x ∈ q1', x.2.length = path.length :=
    fun x hx => h1 x (List.mem_cons_of_mem _ hx)
  have hq2l : ∀ x ∈ q2, x.2.length = path.length + 1 := h2
  have hdql : ∀ x ∈ dq, x.2.length = path.length + 1 :=
    fun x hx => (hprops x hx).2.1
  have hstepdq : ∀ x ∈ dq, adjStep g cur x.1 := by
    intro x hx
    obtain ⟨-, -, e, he, ht⟩ := hprops x hx
    exact ht ▸ List.mem_map_of_mem (·.target) he
  refine ⟨?_, ?_, ?_, ?_, ?_, ?_⟩
  · intro x hx
    rcases List.mem_append.mp hx with hx | hx
    · exact hInv.valid x (List.mem_cons_of_mem _ hx)
    · rw [hdql x hx]
      exact adjPathLen_snoc g path.length n0 cur x.1 hcurv (hstepdq x hx)
  · intro x hx m hm
    rcases List.mem_append.mp hx with hx | hx
    · exact hInv.minimal x (List.mem_cons_of_mem _ hx) m hm
    · rw [hdql x hx]
      by_contra hc
      have hmle : m ≤ path.length := by omega
      exact (hprops x hx).1 (hInv.covered (cur, path) hhead x.1 m hm hmle)
  · intro hd' hhd'
    cases q1' with
    | cons x1 q1'' =>
      simp only [List.cons_append, List.head?_cons, Option.some.injEq] at hhd'
      subst hhd'
      refine ⟨x1 :: q1'', q2 ++ dq, by simp, ?_, ?_⟩
      · intro x hx
        rw [hql x hx, hql x1 (List.mem_cons_self _ _)]
      · intro x hx
        rcases List.mem_append.mp hx with hx | hx
        · rw [hq2l x hx, hql x1 (List.mem_cons_self _ _)]
        · rw [hdql x hx, hql x1 (List.mem_cons_self _ _)]
    | nil =>
      simp only [List.nil_append] at hhd' ⊢
      have hall : ∀ x ∈ q2 ++ dq, x.2.length = path.length + 1 := by
        intro x hx
        rcases List.mem_append.mp hx with hx | hx
        · exact hq2l x hx
        · exact hdql x hx
      have hmem : hd' ∈ q2 ++ dq :=
        List.mem_of_mem_head? (Option.mem_def.mpr hhd')
      refine ⟨q2 ++ dq, [], by simp, ?_, by simp⟩
      intro x hx
      rw [hall x hx, hall hd' hmem]
  · intro x hx
    rcases List.mem_append.mp hx with hx | hx
    · exact hmono _ (hInv.queued_vis x (List.mem_cons_of_mem _ hx))
    · exact List.mem_append_right _ (List.mem_map_of_mem (·.1) hx)
  · intro w hw
    rcases List.mem_append.mp hw with hw | hw
    · rcases hInv.vis_done w hw with ⟨x, hxq, hx1⟩ | hdone
      · rcases List.mem_cons.mp hxq with heq | hxq
        · right
          intro e he
          have hcw : cur = w := by rw [← hx1, heq]
          rw [← hcw] at he
          exact hexp e he
        · left
          exact ⟨x, List.mem_append_left _ hxq, hx1⟩
      · right
        intro e he
        exact hmono _ (hdone e he)
    · obtain ⟨x, hxdq, hx1⟩ := List.mem_map.mp hw
      left
      exact ⟨x, List.mem_append_right _ hxdq, hx1⟩
  · intro hd' hhd' y m hm hmle
    cases q1' with
    | cons x1 q1'' =>
      simp only [List.cons_append, List.head?_cons, Option.some.injEq] at hhd'
      subst hhd'
      rw [hql x1 (List.mem_cons_self _ _)] at hmle
      exact hmono _ (hInv.covered (cur, path) hhead y m hm hmle)
    | nil =>
      simp only [List.nil_append] at hhd' ⊢
      have hall : ∀ x ∈ q2 ++ dq, x.2.length = path.length + 1 := by
        intro x hx
        rcases List.mem_append.mp hx with hx | hx
        · exact hq2l x hx
        · exact hdql x hx
      have hmem : hd' ∈ q2 ++ dq :=
        List.mem_of_mem_head? (Option.mem_def.mpr hhd')
      rw [hall hd' hmem] at hmle
      rcases Nat.lt_or_ge m (path.length + 1) with hlt | hge
      · exact hmono _ (hInv.covered (cur, path) hhead y m hm
          (show m ≤ path.length by omega))
      · have hmeq : m = path.length + 1 := by omega
        subst hmeq
        obtain ⟨w', hw'p, hw's⟩ := adjPathLen_snoc_inv g path.length n0 y hm
        have hw'v : w' ∈ v :=
          hInv.covered (cur, path) hhead w' path.length hw'p (Nat.le_refl _)
        rcases hInv.vis_done w' hw'v with ⟨x, hxq, hx1⟩ | hdone
        · have hxlen : x.2.length ≤ path.length :=
            hInv.minimal x hxq path.length (by rw [hx1]; exact hw'p)
          rcases List.mem_cons.mp hxq with heq | hxq2
          · have hcw : cur = w' := by rw [← hx1, heq]
            rw [← hcw] at hw's
            obtain ⟨e, he, het⟩ :=
              List.mem_map.mp (show y ∈ (g.edgesOf cur).map (·.target) from hw's)
            exact het ▸ hexp e he
          · simp only [List.nil_append] at hxq2
            have := hq2l x hxq2
            omega
        · obtain ⟨e, he, het⟩ :=
            List.mem_map.mp (show y ∈ (g.edgesOf w').map (·.target) from hw's)
          exact hmono _ (het ▸ hdone e he)

theorem bfs_min (g : SemanticGraph) (to_ n0 : String) :
    ∀ (fuel : Nat) (v : List String) (q : List (String × List JoinStep)),
      BfsInv g n0 v q →
      ∀ p : List JoinStep, bfs g to_ fuel v q = some (some p) →
        adjPathLen g p.length n0 to_ ∧
          ∀ m, adjPathLen g m n0 to_ → p.length ≤ m := by
  intro fuel
  induction fuel with
  | zero => intro v q _ p h; simp [bfs] at h
  | succ fuel ih =>
    intro v q hInv p h
    match hq0 : q with
    | [] => simp [bfs] at h
    | (cur, path) :: rest =>
      simp only [bfs] at h
      match hpe : process_edges to_ cur path (g.edgesOf cur) v rest with
      | (some p', v', q') =>
        rw [hpe] at h
        simp only [Option.some.injEq] at h
        subst h
        obtain ⟨hlen, ⟨e, he, het⟩, hto⟩ := process_edges_found_spec hpe
        constructor
        · rw [hlen]
          exact adjPathLen_snoc g path.length n0 cur to_
            (hInv.valid (cur, path) (List.mem_cons_self _ _))
            (het ▸ List.mem_map_of_mem (·.target) he)
        · intro m hm
          by_contra hc
          have hmle : m ≤ path.length := by omega
          exact hto (hInv.covered (cur, path) rfl to_ m hm hmle)
      | (none, v', q') =>
        rw [hpe] at h
        exact ih v' q' (bfs_inv_step g n0 to_ cur path rest v v' q' hInv hpe) p h

theorem rewrite_select_expr_isOk (g : SemanticGraph) (e : Expression)
    (refs : List (String × String)) :
    ∃ r, rewrite_select_expr g e refs = .ok r := by
  unfold rewrite_select_expr
  repeat' split
  all_goals exact ⟨_, rfl⟩

theorem rewrite_projection_item_isOk (g : SemanticGraph)
    (refs : List (String × String)) (item : Expression) :
    ∃ r, rewrite_projection_item g refs item = .ok r := by
  unfold rewrite_projection_item
  split
  · rename_i inner a
    obtain ⟨r, hr⟩ := rewrite_select_expr_isOk g inner refs
    exact ⟨.aliasE r a, by rw [hr]; rfl⟩
  · exact ⟨_, rfl⟩
  · exact rewrite_select_expr_isOk g _ refs

theorem rewrite_projection_isOk (g : SemanticGraph) (p : List Expression)
    (refs : List (String × String)) :
    ∃ rs, rewrite_projection g p refs = .ok rs := by
  induction p with
  | nil => exact ⟨[], rfl⟩
  | cons item rest ih =>
    obtain ⟨rs, hrs⟩ := ih
    obtain ⟨r, hr⟩ := rewrite_projection_item_isOk g refs item
    refine ⟨r :: rs, ?_⟩
    unfold rewrite_projection at hrs ⊢
    rw [List.mapM_cons, hr, hrs]
    rfl

theorem hsInsert_of_not_mem {l : List String} {s : String} (h : s ∉ l) :
    hsInsert l s = l ++ [s] := by
  simp [hsInsert, h]

theorem erase_append_singleton {l : List String} {x : String} (h : x ∉ l) :
    (l ++ [x]).erase x = l := by
  induction l with
  | nil => simp
  | cons a rest ih =>
    have ha : a ≠ x := fun hax => h (hax ▸ List.mem_cons_self a rest)
    have hr : x ∉ rest := fun hx => h (List.mem_cons_of_mem a hx)
    simp only [List.cons_append, List.erase_cons]
    rw [if_neg (by simpa using ha), ih hr]

theorem dfs_preserve_all (adj : List (String × List String)) :
    ∀ fuel, DfsVisitPreserveP adj fuel ∧ DfsListPreserveP adj fuel := by
  intro fuel
  induction fuel with
  | zero =>
    constructor
    · intro node v r b v' r' hrv hnv h
      simp [dfs_visit] at h
    · intro ns v r b v' r' hrv h
      cases ns with
      | nil =>
        simp only [dfs_visit_list, Option.some.injEq, Prod.mk.injEq] at h
        obtain ⟨hb, hv, hr⟩ := h
        subst hv
        subst hr
        exact ⟨fun x hx => hx, fun _ => rfl⟩
      | cons n rest => simp [dfs_visit_list] at h
  | succ fuel ih =>
    constructor
    · intro node v r b v' r' hrv hnv h
      simp only [dfs_visit] at h
      have hrv1 : ∀ x ∈ hsInsert r node, x ∈ hsInsert v node := by
        intro x hx
        rcases (mem_hsInsert r node x).mp hx with hx | hx
        · exact (mem_hsInsert v node x).mpr (Or.inl (hrv x hx))
        · exact (mem_hsInsert v node x).mpr (Or.inr hx)
      split at h
      · exact absurd h (by simp)
      · rename_i v2 r2 heq
        simp only [Option.some.injEq, Prod.mk.injEq] at h
        obtain ⟨hb, hv, hr⟩ := h
        subst hv
        obtain ⟨hsub, -⟩ := ih.2 _ _ _ _ _ _ hrv1 heq
        refine ⟨fun x hx => hsub x ((mem_hsInsert v node x).mpr (Or.inl hx)),
          hsub node ((mem_hsInsert v node node).mpr (Or.inr rfl)),
          fun hbf => absurd (hb.trans hbf) (by simp)⟩
      · rename_i v2 r2 heq
        simp only [Option.some.injEq, Prod.mk.injEq] at h
        obtain ⟨hb, hv, hr⟩ := h
        subst hv
        obtain ⟨hsub, hrst⟩ := ih.2 _ _ _ _ _ _ hrv1 heq
        have hr2 : r2 = hsInsert r node := hrst rfl
        have hnr : node ∉ r := fun hx => hnv (hrv node hx)
        refine ⟨fun x hx => hsub x ((mem_hsInsert v node x).mpr (Or.inl hx)),
          hsub node ((mem_hsInsert v node node).mpr (Or.inr rfl)),
          fun _ => ?_⟩
        rw [← hr, hr2, hsInsert_of_not_mem hnr, erase_append_singleton hnr]
    · intro ns v r b v' r' hrv h
      cases ns with
      | nil =>
        simp only [dfs_visit_list, Option.some.injEq, Prod.mk.injEq] at h
        obtain ⟨hb, hv, hr⟩ := h
        subst hv
        subst hr
        exact ⟨fun x hx => hx, fun _ => rfl⟩
      | cons n rest =>
        simp only [dfs_visit_list] at h
        by_cases hvn : v.contains n
        · rw [if_neg (by simp only [hvn]; decide)] at h
          by_cases hrn : r.contains n
          · rw [if_pos hrn] at h
            simp only [Option.some.injEq, Prod.mk.injEq] at h
            obtain ⟨hb, hv, hr⟩ := h
            subst hv
            subst hr
            exact ⟨fun x hx => hx, fun hbf => absurd (hb.trans hbf) (by simp)⟩
          · rw [if_neg hrn] at h
            exact ih.2 rest v r b v' r' hrv h
        · have hb0 : v.contains n = false := by simpa using hvn
          rw [if_pos (by simp only [hb0]; decide)] at h
          rcases hvis : dfs_visit adj fuel n v r with - | ⟨b2, v2, r2⟩
          · rw [hvis] at h
            exact absurd h (by simp)
          · rw [hvis] at h
            cases b2 with
            | true =>
              simp only [Option.some.injEq, Prod.mk.injEq] at h
              obtain ⟨hb, hv, hr⟩ := h
              subst hv
              obtain ⟨hsub, -, -⟩ := ih.1 n v r true v2 r2 hrv (by simpa using hvn) hvis
              exact ⟨hsub, fun hbf => absurd (hb.trans hbf) (by simp)⟩
            | false =>
              obtain ⟨hsub, -, hrst⟩ := ih.1 n v r false v2 r2 hrv (by simpa using hvn) hvis
              have hr2 : r2 = r := hrst rfl
              rw [hr2] at h
              obtain ⟨hsub2, hrr⟩ := ih.2 rest v2 r b v' r' (fun x hx => hsub x (hrv x hx)) h
              exact ⟨fun x hx => hsub2 x (hsub x hx), hrr⟩

theorem dfs_visit_preserve (adj : List (String × List String)) :
    ∀ fuel, DfsVisitPreserveP adj fuel :=
  fun fuel => (dfs_preserve_all adj fuel).1

theorem dfs_list_preserve (adj : List (String × List String)) (fuel : Nat) :
    DfsListPreserveP adj fuel :=
  (dfs_preserve_all adj fuel).2

theorem length_filter_imp_le {α : Type} (l : List α) (p q : α → Bool)
    (himp : ∀ x, q x = true → p x = true) :
    (l.filter q).length ≤ (l.filter p).length := by
  induction l with
  | nil => simp
  | cons a rest ih =>
    by_cases hq : q a
    · simp [List.filter_cons, hq, himp a hq]
      omega
    · have hq' : q a = false := by simpa using hq
      by_cases hp : p a <;>
        simp [List.filter_cons, hq', hp] <;> omega

theorem length_filter_imp_lt {α : Type} (l : List α) (p q : α → Bool)
    (himp : ∀ x, q x = true → p x = true) (a : α) (ha : a ∈ l)
    (hpa : p a = true) (hqa : q a = false) :
    (l.filter q).length < (l.filter p).length := by
  induction l with
  | nil => simp at ha
  | cons b rest ih =>
    rcases List.mem_cons.mp ha with rfl | hb
    · simp only [List.filter_cons, hpa, hqa]
      have := length_filter_imp_le rest p q himp
      simp
      omega
    · by_cases hq : q b
      · simp [List.filter_cons, hq, himp b hq]
        exact ih hb
      · have hq' : q b = false := by simpa using hq
        by_cases hp : p b <;> simp [List.filter_cons, hq', hp]
        · exact Nat.lt_succ_of_lt (ih hb)
        · exact ih hb

theorem dfsUnvisited_hsInsert_lt (adj : List (String × List String))
    (v : List String) (node : String) (hn : node ∈ dep_nodes adj)
    (hnv : node ∉ v) :
    dfsUnvisited adj (hsInsert v node) < dfsUnvisited adj v := by
  unfold dfsUnvisited
  refine length_filter_imp_lt (dep_nodes adj) _ _ ?_ node hn (by simpa using hnv) ?_
  · intro x hx
    simp only [Bool.not_eq_true'] at hx ⊢
    have hnm : x ∉ hsInsert v node := by simpa using hx
    have hxv : x ∉ v := fun hmem => hnm ((mem_hsInsert v node x).mpr (Or.inl hmem))
    simpa using hxv
  · simp [mem_hsInsert]

theorem dfsUnvisited_mono (adj : List (String × List String))
    (v v' : List String) (hsub : ∀ x ∈ v, x ∈ v') :
    dfsUnvisited adj v' ≤ dfsUnvisited adj v := by
  unfold dfsUnvisited
  refine length_filter_imp_le (dep_nodes adj) _ _ ?_
  intro x hx
  simp only [Bool.not_eq_true'] at hx ⊢
  have hnm : x ∉ v' := by simpa using hx
  have hxv : x ∉ v := fun hmem => hnm (hsub x hmem)
  simpa using hxv

theorem dfsUnvisited_le_len (adj : List (String × List String))
    (v : List String) : dfsUnvisited adj v ≤ (dep_nodes adj).length :=
  List.length_filter_le _ _

theorem depAdjL_subset_dep_nodes (adj : List (String × List String))
    (x : String) : ∀ y ∈ depAdjL adj x, y ∈ dep_nodes adj := by
  intro y hy
  unfold depAdjL alistGet at hy
  rcases hfind : adj.find? (fun p => p.1 == x) with - | p
  · rw [hfind] at hy
    simp at hy
  · rw [hfind] at hy
    simp only [Option.map_some', Option.getD_some] at hy
    have hp : p ∈ adj := List.mem_of_find?_eq_some hfind
    unfold dep_nodes
    refine List.mem_append_right _ ?_
    rw [List.mem_flatten]
    exact ⟨p.2, List.mem_map_of_mem (·.2) hp, hy⟩

theorem depAdjL_length_le (adj : List (String × List String)) (x : String) :
    (depAdjL adj x).length ≤ (dep_nodes adj).length := by
  rcases hfind : adj.find? (fun p => p.1 == x) with - | p
  · simp [depAdjL, alistGet, hfind]
  · have hL : depAdjL adj x = p.2 := by simp [depAdjL, alistGet, hfind]
    rw [hL]
    have hp : p ∈ adj := List.mem_of_find?_eq_some hfind
    have h1 : p.2.length ∈ (adj.map (·.2)).map List.length :=
      List.mem_map_of_mem List.length (List.mem_map_of_mem (·.2) hp)
    have h2 : p.2.length ≤ ((adj.map (·.2)).map List.length).sum :=
      List.single_le_sum (fun a _ => Nat.zero_le a) _ h1
    have h3 : ((adj.map (·.2)).flatten).length
        = ((adj.map (·.2)).map List.length).sum := List.length_flatten _
    unfold dep_nodes
    rw [List.length_append]
    omega

theorem dfs_adequate_all (adj : List (String × List String)) :
    ∀ fuel, DfsVisitAdequateP adj fuel ∧ DfsListAdequateP adj fuel := by
  intro fuel
  induction fuel with
  | zero =>
    constructor
    · intro node v r hrv hn hnv hm
      have h1 : node ∈ (dep_nodes adj).filter (fun x => !v.contains x) :=
        List.mem_filter.mpr ⟨hn, by simpa using hnv⟩
      have h2 : 0 < dfsUnvisited adj v :=
        List.length_pos.mpr (List.ne_nil_of_mem h1)
      have h3 : 0 < ((dep_nodes adj).length + 1) * dfsUnvisited adj v :=
        Nat.mul_pos (Nat.succ_pos _) h2
      omega
    · intro ns v r hrv hns hm
      cases ns with
      | nil => simp [dfs_visit_list]
      | cons n rest => simp at hm
  | succ fuel ih =>
    constructor
    · intro node v r hrv hn hnv hm
      simp only [dfs_visit]
      rcases hlist : dfs_visit_list adj fuel ((alistGet adj node).getD [])
          (hsInsert v node) (hsInsert r node) with - | ⟨b2, v2, r2⟩
      · refine absurd hlist (ih.2 _ _ _ ?_ ?_ ?_)
        · intro x hx
          rcases (mem_hsInsert r node x).mp hx with hx | hx
          · exact (mem_hsInsert v node x).mpr (Or.inl (hrv x hx))
          · exact (mem_hsInsert v node x).mpr (Or.inr hx)
        · exact fun y hy => depAdjL_subset_dep_nodes adj node y hy
        · have hlt := dfsUnvisited_hsInsert_lt adj v node hn hnv
          have hmul : ((dep_nodes adj).length + 1) * (dfsUnvisited adj (hsInsert v node) + 1)
              ≤ ((dep_nodes adj).length + 1) * dfsUnvisited adj v :=
            Nat.mul_le_mul (Nat.le_refl _) (by omega)
          have hdistrib : ((dep_nodes adj).length + 1) * (dfsUnvisited adj (hsInsert v node) + 1)
              = ((dep_nodes adj).length + 1) * dfsUnvisited adj (hsInsert v node)
                + ((dep_nodes adj).length + 1) := by ring
          have hlen : ((alistGet adj node).getD []).length ≤ (dep_nodes adj).length :=
            depAdjL_length_le adj node
          omega
      · cases b2 <;> simp
    · intro ns v r hrv hns hm
      cases ns with
      | nil => simp [dfs_visit_list]
      | cons n rest =>
        simp only [dfs_visit_list]
        simp only [List.length_cons] at hm
        by_cases hvn : v.contains n
        · rw [if_neg (by simp only [hvn]; decide)]
          by_cases hrn : r.contains n
          · rw [if_pos hrn]
            simp
          · rw [if_neg hrn]
            refine ih.2 rest v r hrv (fun x hx => hns x (List.mem_cons_of_mem n hx))
              (by omega)
        · have hb0 : v.contains n = false := by simpa using hvn
          rw [if_pos (by simp only [hb0]; decide)]
          rcases hvis : dfs_visit adj fuel n v r with - | ⟨b2, v2, r2⟩
          · exact absurd hvis (ih.1 n v r hrv (hns n (List.mem_cons_self n rest))
              (by simpa using hvn) (by omega))
          · cases b2 with
            | true => simp
            | false =>
              obtain ⟨hsub, hmemv2, hrst⟩ := dfs_visit_preserve adj fuel n v r
                false v2 r2 hrv (by simpa using hvn) hvis
              have hr2 : r2 = r := hrst rfl
              rw [hr2]
              refine ih.2 rest v2 r (fun x hx => hsub x (hrv x hx))
                (fun x hx => hns x (List.mem_cons_of_mem n hx)) ?_
              have hsub1 : ∀ x ∈ hsInsert v n, x ∈ v2 := by
                intro x hx
                rcases (mem_hsInsert v n x).mp hx with hx | hx
                · exact hsub x hx
                · exact hx ▸ hmemv2
              have hmono : dfsUnvisited adj v2 ≤ dfsUnvisited adj (hsInsert v n) :=
                dfsUnvisited_mono adj _ _ hsub1
              have hlt := dfsUnvisited_hsInsert_lt adj v n
                (hns n (List.mem_cons_self n rest)) (by simpa using hvn)
              have hmul : ((dep_nodes adj).length + 1) * (dfsUnvisited adj v2 + 1)
                  ≤ ((dep_nodes adj).length + 1) * dfsUnvisited adj v :=
                Nat.mul_le_mul (Nat.le_refl _) (by omega)
              have hdistrib : ((dep_nodes adj).length + 1) * (dfsUnvisited adj v2 + 1)
                  = ((dep_nodes adj).length + 1) * dfsUnvisited adj v2
                    + ((dep_nodes adj).length + 1) := by ring
              omega

theorem dfs_visit_adequate (adj : List (String × List String)) :
    ∀ fuel, DfsVisitAdequateP adj fuel :=
  fun fuel => (dfs_adequate_all adj fuel).1

theorem cycleReachable_of_edge (adj : List (String × List String))
    {x y : String} (hxy : depEdge adj x y) (h : CycleReachable adj y) :
    CycleReachable adj x := by
  obtain ⟨z, hreach, hcyc⟩ := h
  exact ⟨z, Relation.ReflTransGen.head hxy hreach, hcyc⟩

theorem dfs_true_all (adj : List (String × List String)) :
    ∀ fuel, DfsVisitTrueP adj fuel ∧ DfsListTrueP adj fuel := by
  intro fuel
  induction fuel with
  | zero =>
    constructor
    · intro node v r v' r' hrv hnv hreach h
      simp [dfs_visit] at h
    · intro cur ns v r v' r' hrv hedges hreach h
      cases ns with
      | nil => simp [dfs_visit_list] at h
      | cons n rest => simp [dfs_visit_list] at h
  | succ fuel ih =>
    constructor
    · intro node v r v' r' hrv hnv hreach h
      simp only [dfs_visit] at h
      split at h
      · exact absurd h (by simp)
      · rename_i v2 r2 heq
        refine ih.2 node _ _ _ v2 r2 ?_ (fun n hn => hn) ?_ heq
        · intro x hx
          rcases (mem_hsInsert r node x).mp hx with hx | hx
          · exact (mem_hsInsert v node x).mpr (Or.inl (hrv x hx))
          · exact (mem_hsInsert v node x).mpr (Or.inr hx)
        · intro x hx
          rcases (mem_hsInsert r node x).mp hx with hx | hx
          · exact hreach x hx
          · rw [hx]
      · simp at h
    · intro cur ns v r v' r' hrv hedges hreach h
      cases ns with
      | nil => simp [dfs_visit_list] at h
      | cons n rest =>
        have hedge : depEdge adj cur n := hedges n (List.mem_cons_self n rest)
        simp only [dfs_visit_list] at h
        by_cases hvn : v.contains n
        · rw [if_neg (by simp only [hvn]; decide)] at h
          by_cases hrn : r.contains n
          · have hnr : n ∈ r := by simpa using hrn
            exact ⟨n, Relation.ReflTransGen.single hedge,
              Relation.TransGen.tail' (hreach n hnr) hedge⟩
          · rw [if_neg hrn] at h
            exact ih.2 cur rest v r v' r' hrv
              (fun x hx => hedges x (List.mem_cons_of_mem n hx)) hreach h
        · have hb0 : v.contains n = false := by simpa using hvn
          rw [if_pos (by simp only [hb0]; decide)] at h
          rcases hvis : dfs_visit adj fuel n v r with - | ⟨b2, v2, r2⟩
          · rw [hvis] at h
            simp at h
          · rw [hvis] at h
            cases b2 with
            | true =>
              have hcyc : CycleReachable adj n := ih.1 n v r v2 r2 hrv
                (by simpa using hvn)
                (fun x hx => Relation.ReflTransGen.tail (hreach x hx) hedge) hvis
              exact cycleReachable_of_edge adj hedge hcyc
            | false =>
              obtain ⟨hsub, -, hrst⟩ := dfs_visit_preserve adj fuel n v r
                false v2 r2 hrv (by simpa using hvn) hvis
              have hr2 : r2 = r := hrst rfl
              rw [hr2] at h
              exact ih.2 cur rest v2 r v' r' (fun x hx => hsub x (hrv x hx))
                (fun x hx => hedges x (List.mem_cons_of_mem n hx)) hreach h

theorem dfs_visit_true (adj : List (String × List String)) :
    ∀ fuel, DfsVisitTrueP adj fuel :=
  fun fuel => (dfs_true_all adj fuel).1

theorem DepDone_mono_v (adj : List (String × List String))
    {v v' r : List String} {x : String} (h : DepDone adj v r x)
    (hsub : ∀ y ∈ v, y ∈ v') : DepDone adj v' r x :=
  ⟨fun y hy => ⟨hsub y (h.1 y hy).1, (h.1 y hy).2⟩, h.2⟩

theorem DepDone_anti_r (adj : List (String × List String))
    {v r r1 : List String} {x : String} (h : DepDone adj v r1 x)
    (hsub : ∀ y ∈ r, y ∈ r1) : DepDone adj v r x :=
  ⟨fun y hy => ⟨(h.1 y hy).1, fun hyr => (h.1 y hy).2 (hsub y hyr)⟩, h.2⟩

theorem DepDone_push (adj : List (String × List String))
    {v r : List String} {x node : String} (h : DepDone adj v r x)
    (hnv : node ∉ v) : DepDone adj (hsInsert v node) (hsInsert r node) x := by
  refine ⟨fun y hy => ?_, h.2⟩
  obtain ⟨hyv, hyr⟩ := h.1 y hy
  refine ⟨(mem_hsInsert v node y).mpr (Or.inl hyv), fun hmem => ?_⟩
  rcases (mem_hsInsert r node y).mp hmem with hmem | hmem
  · exact hyr hmem
  · exact hnv (hmem ▸ hyv)

theorem DepInv_push (adj : List (String × List String))
    {v r : List String} {node : String} (h : DepInv adj v r) (hnv : node ∉ v) :
    DepInv adj (hsInsert v node) (hsInsert r node) := by
  constructor
  · intro x hx
    rcases (mem_hsInsert r node x).mp hx with hx | hx
    · exact (mem_hsInsert v node x).mpr (Or.inl (h.1 x hx))
    · exact (mem_hsInsert v node x).mpr (Or.inr hx)
  · intro x hxv hxr
    rcases (mem_hsInsert v node x).mp hxv with hxv | hxv
    · have hxr' : x ∉ r := fun hm => hxr ((mem_hsInsert r node x).mpr (Or.inl hm))
      exact DepDone_push adj (h.2 x hxv hxr') hnv
    · exact absurd ((mem_hsInsert r node x).mpr (Or.inr hxv)) hxr

theorem dfs_false_all (adj : List (String × List String)) :
    ∀ fuel, DfsVisitFalseP adj fuel ∧ DfsListFalseP adj fuel := by
  intro fuel
  induction fuel with
  | zero =>
    constructor
    · intro node v r v' r' hInv hnv h
      simp [dfs_visit] at h
    · intro ns v r v' r' hInv h
      cases ns with
      | nil =>
        simp only [dfs_visit_list, Option.some.injEq, Prod.mk.injEq] at h
        obtain ⟨-, hv, hr⟩ := h
        subst hv
        subst hr
        exact ⟨fun x hx => hx, rfl, hInv, by simp⟩
      | cons n rest => simp [dfs_visit_list] at h
  | succ fuel ih =>
    constructor
    · intro node v r v' r' hInv hnv h
      simp only [dfs_visit] at h
      split at h
      · exact absurd h (by simp)
      · simp at h
      · rename_i v2 r2 heq
        simp only [Option.some.injEq, Prod.mk.injEq] at h
        obtain ⟨-, hv, hr⟩ := h
        subst hv
        obtain ⟨hsub1, hr21, hInv2, hAllDone⟩ :=
          ih.2 _ _ _ v2 r2 (DepInv_push adj hInv hnv) heq
        have hnr : node ∉ r := fun hm => hnv (hInv.1 node hm)
        have hrr : r' = r := by
          rw [← hr, hr21, hsInsert_of_not_mem hnr, erase_append_singleton hnr]
        have hmemv2 : node ∈ v2 :=
          hsub1 node ((mem_hsInsert v node node).mpr (Or.inr rfl))
        have hsubv : ∀ x ∈ v, x ∈ v2 :=
          fun x hx => hsub1 x ((mem_hsInsert v node x).mpr (Or.inl hx))
        have hNodeDone : DepDone adj v2 r node := by
          constructor
          · intro y hy
            rcases Relation.ReflTransGen.cases_head hy with rfl | ⟨n1, hstep, hrest⟩
            · exact ⟨hmemv2, hnr⟩
            · obtain ⟨hyv, hyr1⟩ := (hAllDone n1 hstep).1 y hrest
              exact ⟨hyv, fun hm =>
                hyr1 ((mem_hsInsert r node y).mpr (Or.inl hm))⟩
          · rintro ⟨y, hreach, hcyc⟩
            rcases Relation.ReflTransGen.cases_head hreach with rfl | ⟨n1, hstep, hrest⟩
            · obtain ⟨n1, hstep, hrest⟩ := (Relation.TransGen.head'_iff).mp hcyc
              have hc := ((hAllDone n1 hstep).1 node hrest).2
              exact hc ((mem_hsInsert r node node).mpr (Or.inr rfl))
            · exact (hAllDone n1 hstep).2 ⟨y, hrest, hcyc⟩
        refine ⟨hsubv, hmemv2, hrr, ?_, ?_⟩
        · intro x hx
          exact hsubv x (hInv.1 x hx)
        · intro x hxv2 hxr
          by_cases hxr1 : x ∈ hsInsert r node
          · rcases (mem_hsInsert r node x).mp hxr1 with hm | rfl
            · exact absurd hm hxr
            · exact hNodeDone
          · exact DepDone_anti_r adj (hInv2.2 x hxv2 hxr1)
              (fun y hy => (mem_hsInsert r node y).mpr (Or.inl hy))
    · intro ns v r v' r' hInv h
      cases ns with
      | nil =>
        simp only [dfs_visit_list, Option.some.injEq, Prod.mk.injEq] at h
        obtain ⟨-, hv, hr⟩ := h
        subst hv
        subst hr
        exact ⟨fun x hx => hx, rfl, hInv, by simp⟩
      | cons n rest =>
        simp only [dfs_visit_list] at h
        by_cases hvn : v.contains n
        · rw [if_neg (by simp only [hvn]; decide)] at h
          by_cases hrn : r.contains n
          · rw [if_pos hrn] at h
            simp at h
          · rw [if_neg hrn] at h
            have hnv : n ∈ v := by simpa using hvn
            have hnr : n ∉ r := by simpa using hrn
            have hDone : DepDone adj v r n := hInv.2 n hnv hnr
            obtain ⟨hsub, hrr, hInv', hrest⟩ := ih.2 rest v r v' r' hInv h
            exact ⟨hsub, hrr, hInv', fun m hm => by
              rcases List.mem_cons.mp hm with rfl | hm
              · exact DepDone_mono_v adj hDone hsub
              · exact hrest m hm⟩
        · have hb0 : v.contains n = false := by simpa using hvn
          rw [if_pos (by simp only [hb0]; decide)] at h
          rcases hvis : dfs_visit adj fuel n v r with - | ⟨b2, v2, r2⟩
          · rw [hvis] at h
            simp at h
          · rw [hvis] at h
            cases b2 with
            | true => simp at h
            | false =>
              obtain ⟨hsub1, hnv2, hr2, hInv2⟩ := ih.1 n v r v2 r2 hInv
                (by simpa using hvn) hvis
              rw [hr2] at h
              obtain ⟨hsub2, hrr, hInv', hrest⟩ := ih.2 rest v2 r v' r' hInv2 h
              have hnr : n ∉ r := fun hm => (by simpa using hvn : n ∉ v) (hInv.1 n hm)
              have hDone : DepDone adj v2 r n := hInv2.2 n hnv2 hnr
              refine ⟨fun x hx => hsub2 x (hsub1 x hx), hrr, hInv', fun m hm => ?_⟩
              rcases List.mem_cons.mp hm with rfl | hm
              · exact DepDone_mono_v adj hDone hsub2
              · exact hrest m hm

theorem dfs_visit_false (adj : List (String × List String)) :
    ∀ fuel, DfsVisitFalseP adj fuel :=
  fun fuel => (dfs_false_all adj fuel).1

theorem keys_alistInsert_self {α : Type} (l : List (String × α)) (k : String)
    (v : α) : k ∈ (alistInsert l k v).map (·.1) := by
  induction l with
  | nil => simp [alistInsert]
  | cons p rest ih =>
    obtain ⟨k', v'⟩ := p
    by_cases h : k' = k
    · simp [alistInsert, h]
    · simpa [alistInsert, h] using Or.inr ih

theorem keys_alistInsert_mono {α : Type} (l : List (String × α)) (k : String)
    (v : α) (a : String) (ha : a ∈ l.map (·.1)) :
    a ∈ (alistInsert l k v).map (·.1) := by
  induction l with
  | nil => simp at ha
  | cons p rest ih =>
    obtain ⟨k', v'⟩ := p
    simp only [alistInsert]
    by_cases h : k' = k
    · rw [if_pos (show (k' == k) = true by simpa using h)]
      simp only [List.map_cons, List.mem_cons] at ha ⊢
      rcases ha with ha | ha
      · exact Or.inl (by rw [← h]; exact ha)
      · exact Or.inr ha
    · rw [if_neg (show ¬(k' == k) = true by simpa using h)]
      simp only [List.map_cons, List.mem_cons] at ha ⊢
      rcases ha with ha | ha
      · exact Or.inl ha
      · exact Or.inr (ih ha)

theorem keys_build_dep_adj_fold (g : SemanticGraph) :
    ∀ (ms : List (String × Metric)) (acc : List (String × List String)),
      (∀ a ∈ acc.map (·.1),
        a ∈ (ms.foldl (fun adj p =>
          alistInsert adj p.1 (extract_dependencies p.2 (some g))) acc).map (·.1)) ∧
      (∀ p ∈ ms,
        p.1 ∈ (ms.foldl (fun adj p =>
          alistInsert adj p.1 (extract_dependencies p.2 (some g))) acc).map (·.1)) := by
  intro ms
  induction ms with
  | nil => exact fun acc => ⟨fun a ha => ha, by simp⟩
  | cons q rest ih =>
    intro acc
    constructor
    · intro a ha
      simp only [List.foldl_cons]
      exact (ih _).1 a (keys_alistInsert_mono acc q.1 _ a ha)
    · intro p hp
      simp only [List.foldl_cons]
      rcases List.mem_cons.mp hp with rfl | hp
      · exact (ih _).1 p.1 (keys_alistInsert_self acc p.1 _)
      · exact (ih _).2 p hp

theorem roots_mem_dep_nodes (metrics : List (String × Metric))
    (g : SemanticGraph) :
    ∀ root ∈ metrics.map (·.1), root ∈ dep_nodes (build_dep_adj metrics g) := by
  intro root hroot
  obtain ⟨p, hp, rfl⟩ := List.mem_map.mp hroot
  have hk := (keys_build_dep_adj_fold g metrics []).2 p hp
  exact List.mem_append_left _ hk

theorem check_loop_spec (adj : List (String × List String)) :
    ∀ (roots visited : List String), DepInv adj visited [] →
      (∀ root ∈ roots, root ∈ dep_nodes adj) →
      match check_loop adj (dfsFuel adj) roots visited with
      | .ok _ => ∀ root ∈ roots, ¬ CycleReachable adj root
      | .error msg => ∃ name ∈ roots, CycleReachable adj name ∧
          msg = "Circular dependency detected involving metric '" ++ name ++ "'" := by
  intro roots
  induction roots with
  | nil =>
    intro visited hInv hroots
    simp [check_loop]
  | cons name rest ih =>
    intro visited hInv hroots
    simp only [check_loop]
    by_cases hv : visited.contains name
    · rw [if_pos hv]
      have hres := ih visited hInv (fun x hx => hroots x (List.mem_cons_of_mem name hx))
      have hnc : ¬ CycleReachable adj name :=
        (hInv.2 name (by simpa using hv) (List.not_mem_nil name)).2
      rcases hloop : check_loop adj (dfsFuel adj) rest visited with msg | u
      · rw [hloop] at hres
        simp only [hloop]
        obtain ⟨n, hn, hc, hm⟩ := hres
        exact ⟨n, List.mem_cons_of_mem name hn, hc, hm⟩
      · rw [hloop] at hres
        simp only [hloop]
        intro root hroot
        rcases List.mem_cons.mp hroot with rfl | hroot
        · exact hnc
        · exact hres root hroot
    · rw [if_neg hv]
      have hnv : name ∉ visited := by simpa using hv
      rcases hvis : dfs_visit adj (dfsFuel adj) name visited [] with - | ⟨b2, v2, r2⟩
      · exact absurd hvis (dfs_visit_adequate adj (dfsFuel adj) name visited []
          (fun x hx => absurd hx (List.not_mem_nil x))
          (hroots name (List.mem_cons_self name rest)) hnv
          (by
            have h1 := dfsUnvisited_le_len adj visited
            have h2 : ((dep_nodes adj).length + 1) * dfsUnvisited adj visited
                ≤ ((dep_nodes adj).length + 1) * ((dep_nodes adj).length + 1) :=
              Nat.mul_le_mul (Nat.le_refl _) (by omega)
            unfold dfsFuel
            omega))
      · cases b2 with
        | true =>
          refine ⟨name, List.mem_cons_self name rest, ?_, rfl⟩
          exact dfs_visit_true adj (dfsFuel adj) name visited [] v2 r2
            (fun x hx => absurd hx (List.not_mem_nil x)) hnv
            (fun x hx => absurd hx (List.not_mem_nil x)) hvis
        | false =>
          obtain ⟨hsub, hmem, hr2, hInv2⟩ := dfs_visit_false adj (dfsFuel adj)
            name visited [] v2 r2 hInv hnv hvis
          have hres := ih v2 hInv2 (fun x hx => hroots x (List.mem_cons_of_mem name hx))
          have hnc : ¬ CycleReachable adj name :=
            (hInv2.2 name hmem (List.not_mem_nil name)).2
          rcases hloop : check_loop adj (dfsFuel adj) rest v2 with msg | u
          · rw [hloop] at hres
            simp only [hloop]
            obtain ⟨n, hn, hc, hm⟩ := hres
            exact ⟨n, List.mem_cons_of_mem name hn, hc, hm⟩
          · rw [hloop] at hres
            simp only [hloop]
            intro root hroot
            rcases List.mem_cons.mp hroot with rfl | hroot
            · exact hnc
            · exact hres root hroot

/-! ## Claim theorems -/

/-- C1: the claim says the rewriter materialises a ratio metric in a SELECT
projection as `(numerator) / NULLIF(denominator, 0)`.  The code does not:
`metric_to_expr` routes `MetricType::Ratio` through
`parse_sql_fragment(metric.sql_expr())`, and a ratio metric built by
`Metric::ratio` has no `sql`, so the emitted expression is just the metric's
own name — the numerator and denominator are never read on this path.  The
`NULLIF` form exists only in `Metric::to_sql` (and the generator), shown by
the last conjunct. -/
theorem C1_ratio_rewrite_failing_input :
    metric_to_expr (Metric.ratio "profit_margin" "profit" "revenue") "o" =
      .column none "profit_margin" ∧
    (∀ num denom : String,
      metric_to_expr (Metric.ratio "profit_margin" num denom) "o" =
        .column none "profit_margin") ∧
    (Metric.ratio "profit_margin" "profit" "revenue").to_sql (some "o") =
      "(profit) / NULLIF(revenue, 0)" :=
  ⟨rfl, fun _ _ => rfl, rfl⟩

/-- C4 (counterexample): `find_join_path` checks `from == to` before the
endpoint checks, so with both endpoints equal and unknown it returns the
empty path rather than `ModelNotFound`, contradicting the claim's "fails
with ModelNotFound whenever either endpoint is not a model". -/
theorem C4_counterexample :
    SemanticGraph.new.find_join_path "x" "x" = .ok { steps := [] } ∧
    SemanticGraph.new.get_model "x" = none :=
  ⟨rfl, rfl⟩

/-- C4 (amended): `find_join_path(from, to)` returns the empty path whenever
`from == to` (even for unknown names); when `from ≠ to` it fails with
`ModelNotFound` on the first unknown endpoint; and when both endpoints are
known but no adjacency-edge sequence connects them it fails with
`NoJoinPath`. -/
theorem C4_find_join_path_amended (g : SemanticGraph) (a b : String) :
    (a = b → g.find_join_path a b = .ok { steps := [] }) ∧
    (a ≠ b → g.get_model a = none →
      g.find_join_path a b = .error (.ModelNotFound a)) ∧
    (a ≠ b → (g.get_model a).isSome → g.get_model b = none →
      g.find_join_path a b = .error (.ModelNotFound b)) ∧
    (a ≠ b → (g.get_model a).isSome → (g.get_model b).isSome →
      ¬ Reaches g a b → g.find_join_path a b = .error (.NoJoinPath a b)) := by
  refine ⟨?_, ?_, ?_, ?_⟩
  · intro h
    subst h
    simp [SemanticGraph.find_join_path]
  · intro hne hnone
    have h1 : (a == b) = false := beq_eq_false_iff_ne.mpr hne
    have h2 : (alistGet g.models a).isNone = true := by
      rw [show alistGet g.models a = g.get_model a from rfl, hnone]
      rfl
    simp [SemanticGraph.find_join_path, h1, h2]
  · intro hne hsa hnone
    have h1 : (a == b) = false := beq_eq_false_iff_ne.mpr hne
    have h2 : (alistGet g.models a).isNone = false := by
      rw [show alistGet g.models a = g.get_model a from rfl]
      simpa using hsa
    have h3 : (alistGet g.models b).isNone = true := by
      rw [show alistGet g.models b = g.get_model b from rfl, hnone]
      rfl
    simp [SemanticGraph.find_join_path, h1, h2, h3]
  · intro hne hsa hsb hnr
    have h1 : (a == b) = false := beq_eq_false_iff_ne.mpr hne
    have h2 : (alistGet g.models a).isNone = false := by
      rw [show alistGet g.models a = g.get_model a from rfl]
      simpa using hsa
    have h3 : (alistGet g.models b).isNone = false := by
      rw [show alistGet g.models b = g.get_model b from rfl]
      simpa using hsb
    have hq : ∀ x ∈ ([(a, ([] : List JoinStep))] : List (String × List JoinStep)),
        Reaches g a x.1 := by
      intro x hx
      simp only [List.mem_singleton] at hx
      rw [hx]
      exact Relation.ReflTransGen.refl
    rcases hb : bfs g b g.bfsFuel [a] [(a, [])] with - | op
    · simp [SemanticGraph.find_join_path, h1, h2, h3, hb]
    · cases op with
      | none => simp [SemanticGraph.find_join_path, h1, h2, h3, hb]
      | some p => exact absurd (bfs_sound g b a g.bfsFuel [a] [(a, [])] hq p hb) hnr

/-- C4 (witness): the amended behaviour at concrete inputs — same-model
lookup on the demo graph, unknown endpoints, and two models with no
relationship. -/
theorem C4_witness :
    gDemo.find_join_path "orders" "orders" = .ok { steps := [] } ∧
    gDemo.find_join_path "nope" "orders" = .error (.ModelNotFound "nope") ∧
    gDemo.find_join_path "orders" "nope" = .error (.ModelNotFound "nope") ∧
    gDisconnected.find_join_path "a" "b" = .error (.NoJoinPath "a" "b") := by
  have hnr : ¬ Reaches gDisconnected "a" "b" := by
    intro h
    rcases Relation.ReflTransGen.cases_head h with heq | ⟨c, hstep, -⟩
    · exact absurd heq (by decide)
    · have hc : c ∈ (gDisconnected.edgesOf "a").map (·.target) := hstep
      rw [show gDisconnected.edgesOf "a" = [] from rfl] at hc
      simp at hc
  exact ⟨(C4_find_join_path_amended gDemo "orders" "orders").1 rfl,
    (C4_find_join_path_amended gDemo "nope" "orders").2.1 (by decide) rfl,
    (C4_find_join_path_amended gDemo "orders" "nope").2.2.1 (by decide) rfl rfl,
    (C4_find_join_path_amended gDisconnected "a" "b").2.2.2 (by decide) rfl rfl hnr⟩

/-- C3: for every rewritten SELECT (one whose FROM references a model, so
the passthrough is not taken): when the rewritten projection contains at
least one aggregation and at least one non-aggregation item, the output's
GROUP BY is the list of positional references to the non-aggregate
projection items, in left-to-right order; otherwise the input's GROUP BY is
preserved unchanged. -/
theorem C3_group_by_spec (g : SemanticGraph) (s : Select) (out : Select)
    (hmr : find_model_references g s.from_ ≠ [])
    (h : rewrite_select g s = .ok out) :
    out.group_by =
      (if has_aggregations out.expressions &&
          has_non_aggregated_columns out.expressions
       then some { expressions := out.expressions.enum.filterMap (fun p =>
          if is_aggregation (unwrapAlias p.2) then none
          else some (.literal (.Number (toString (p.1 + 1))))) }
       else s.group_by) := by
  have hne : (find_model_references g s.from_).isEmpty = false := by
    cases hl : find_model_references g s.from_ with
    | nil => exact absurd hl hmr
    | cons a t => rfl
  simp only [rewrite_select, hne, Bool.false_eq_true, if_false] at h
  split at h
  · simp at h
  · split at h
    · rename_i heq2
      split at heq2 <;> simp [rewrite_expr, Except.map] at heq2
    · injection h with h
      subst h
      rfl

/-- C3 (witness): rewriting spec scenario 1 yields a projection with one
aggregate and one dimension, so GROUP BY is replaced by the positional
reference list. -/
theorem C3_witness :
    ∃ out, rewrite_select gDemo qScenario1 = .ok out ∧
      out.group_by =
        (if has_aggregations out.expressions &&
            has_non_aggregated_columns out.expressions
         then some { expressions := out.expressions.enum.filterMap (fun p =>
            if is_aggregation (unwrapAlias p.2) then none
            else some (.literal (.Number (toString (p.1 + 1))))) }
         else qScenario1.group_by) := by
  obtain ⟨out, hout⟩ : ∃ out, rewrite_select gDemo qScenario1 = .ok out := ⟨_, rfl⟩
  exact ⟨out, hout, C3_group_by_spec gDemo qScenario1 out (by decide) hout⟩

/-- C6: `add_model` fails with `Validation` exactly when the model has
neither `table` nor `sql`; on success the model is inserted (overwriting by
name, so `get_model` finds it) and the adjacency index is rebuilt from the
updated model map.  In the state-passing embedding the error case returns no
new graph, so a failing call leaves the caller's graph untouched. -/
theorem C6_add_model_spec (g : SemanticGraph) (m : Model) :
    match g.add_model m with
    | .error e => m.table = none ∧ m.sql = none ∧
        e = .Validation
          ("Model '" ++ m.name ++ "' must have either 'table' or 'sql' defined")
    | .ok g' => ¬(m.table = none ∧ m.sql = none) ∧
        g'.models = alistInsert g.models m.name m ∧
        g'.get_model m.name = some m ∧
        g'.adjacency = rebuild_adjacency g'.models := by
  by_cases h : m.table = none ∧ m.sql = none
  · simp only [SemanticGraph.add_model, if_pos h]
    exact ⟨h.1, h.2, by trivial⟩
  · simp only [SemanticGraph.add_model, if_neg h]
    exact ⟨h, by trivial, alistGet_alistInsert_self g.models m.name m, by trivial⟩

/-- C6 (witness): adding the demo model to the empty graph succeeds and the
model is retrievable by name. -/
theorem C6_witness :
    ∃ g', SemanticGraph.new.add_model demoOrders = .ok g' ∧
      g'.get_model "orders" = some demoOrders := by
  have h := C6_add_model_spec SemanticGraph.new demoOrders
  rcases hm : SemanticGraph.new.add_model demoOrders with e | g'
  · rw [hm] at h
    exact absurd h.1 (by simp [demoOrders])
  · rw [hm] at h
    exact ⟨g', rfl, by simpa using h.2.2.1⟩

/-- C7: `parse_reference` fails with `InvalidReference` exactly when the
reference does not contain exactly one `.`; otherwise it splits at the dot,
takes the granularity as the suffix after the first `__` of the field
segment (`none` when there is no `__`), fails with `ModelNotFound` when the
model segment is not a graph key, and otherwise returns
`(model, field, granularity)`. -/
theorem C7_parse_reference_spec (g : SemanticGraph) (s : String) :
    (s.data.count '.' ≠ 1 →
      g.parse_reference s = .error (.InvalidReference
        ("Expected 'model.field' format, got '" ++ s ++ "'"))) ∧
    (∀ m f : List Char, s.data = m ++ '.' :: f → '.' ∉ m → '.' ∉ f →
      ((g.get_model (String.mk m) = none →
          g.parse_reference s = .error (.ModelNotFound (String.mk m))) ∧
       ((g.get_model (String.mk m)).isSome →
          ((∀ b a : List Char, f = b ++ '_' :: '_' :: a →
              (∀ x y : List Char, f = x ++ '_' :: '_' :: y → b.length ≤ x.length) →
              g.parse_reference s =
                .ok (String.mk m, String.mk b, some (String.mk a))) ∧
           ((∀ x y : List Char, f ≠ x ++ '_' :: '_' :: y) →
              g.parse_reference s = .ok (String.mk m, String.mk f, none)))))) := by
  constructor
  · intro hcount
    have hlen : (splitChar '.' s.data).length ≠ 2 := by
      rw [splitChar_length]
      omega
    unfold SemanticGraph.parse_reference
    split
    · rename_i mc fg heq
      exact absurd (by rw [heq]; rfl : (splitChar '.' s.data).length = 2) hlen
    · rfl
  · intro m f hdata hm hf
    have hsp : splitChar '.' s.data = [m, f] := by
      rw [hdata]
      exact splitChar_pair '.' m f hm hf
    constructor
    · intro hnone
      have h2 : (alistGet g.models (String.mk m)).isNone = true := by
        rw [show alistGet g.models (String.mk m) = g.get_model (String.mk m)
          from rfl, hnone]
        rfl
      simp [SemanticGraph.parse_reference, hsp, h2]
    · intro hsome
      have h2 : (alistGet g.models (String.mk m)).isNone = false := by
        rw [show alistGet g.models (String.mk m) = g.get_model (String.mk m)
          from rfl]
        simpa using hsome
      constructor
      · intro b a hfba hmin
        have hfdu : findDoubleUnderscore f = some (b, a) :=
          findDoubleUnderscore_first f b a hfba hmin
        simp [SemanticGraph.parse_reference, hsp, hfdu, h2]
      · intro hno
        have hfdu : findDoubleUnderscore f = none :=
          findDoubleUnderscore_of_no_occurrence f hno
        simp [SemanticGraph.parse_reference, hsp, hfdu, h2]

/-- C7 (witness): a granularity reference, a two-dot reference and an
unknown model, all against the demo graph. -/
theorem C7_witness :
    gDemo.parse_reference "orders.order_date__month" =
      .ok ("orders", "order_date", some "month") ∧
    gDemo.parse_reference "a.b.c" = .error (.InvalidReference
      "Expected 'model.field' format, got 'a.b.c'") ∧
    gDemo.parse_reference "nope.x" = .error (.ModelNotFound "nope") := by
  have h1 := C7_parse_reference_spec gDemo "orders.order_date__month"
  have h2 := C7_parse_reference_spec gDemo "a.b.c"
  have h3 := C7_parse_reference_spec gDemo "nope.x"
  have hocc := findDoubleUnderscore_some_spec "order_date__month".data
    "order_date".data "month".data rfl
  exact ⟨((h1.2 "orders".data "order_date__month".data rfl (by decide)
      (by decide)).2 rfl).1 "order_date".data "month".data hocc.1 hocc.2,
    h2.1 (by decide),
    (h3.2 "nope".data "x".data rfl (by decide) (by decide)).1 rfl⟩

/-- C8: `extract_dependencies` yields no dependencies for a simple metric,
exactly `{numerator, denominator}` verbatim for a ratio metric, and the
singleton `{sql}` for a derived metric whose sql is a simple qualified
reference (contains `.`, no whitespace, none of the operator characters). -/
theorem C8_extract_dependencies_spec (gOpt : Option SemanticGraph) :
    (∀ m : Metric, m.type = .Simple → extract_dependencies m gOpt = []) ∧
    (∀ (m : Metric) (n d : String), m.type = .Ratio → m.numerator = some n →
      m.denominator = some d →
      ∀ x, x ∈ extract_dependencies m gOpt ↔ (x = n ∨ x = d)) ∧
    (∀ (m : Metric) (s : String), m.type = .Derived → m.sql = some s →
      '.' ∈ s.data → (∀ c ∈ s.data, c.isWhitespace = false) →
      (∀ c ∈ s.data, c ∉ opChars) →
      extract_dependencies m gOpt = [s]) := by
  refine ⟨?_, ?_, ?_⟩
  · intro m h
    simp [extract_dependencies, h]
  · intro m n d ht hn hd x
    simp only [extract_dependencies, ht, hn, hd]
    rw [mem_hsInsert, mem_hsInsert]
    simp
  · intro m s ht hs hdot hws hops
    have htrim : rustTrim s = s := rustTrim_eq_self s hws
    have hsimple : is_simple_reference s = true := by
      unfold is_simple_reference
      rw [htrim]
      have h1 : s.data.contains '.' = true := by simpa using hdot
      have hsp : (' ' : Char) ∉ s.data := fun hmem => by
        have := hws ' ' hmem
        simp at this
      have h2 : s.data.contains ' ' = false := by simpa using hsp
      have h3 : has_operators s = false := by
        unfold has_operators
        rw [List.any_eq_false]
        intro c hc
        simpa using hops c hc
      simp only [Bool.and_eq_true, Bool.not_eq_true']
      exact ⟨⟨h1, h2⟩, h3⟩
    simp [extract_dependencies, ht, hs, hsimple, hsInsert]

/-- C8 (witness): the three metric kinds at concrete inputs — a simple sum,
a ratio and a derived simple qualified reference. -/
theorem C8_witness :
    extract_dependencies (Metric.sum "revenue" "amount") none = [] ∧
    (∀ x, x ∈ extract_dependencies (Metric.ratio "pm" "profit" "revenue")
        (some gDemo) ↔ (x = "profit" ∨ x = "revenue")) ∧
    extract_dependencies (Metric.derived "tr" "orders.revenue") none =
      ["orders.revenue"] := by
  have h := C8_extract_dependencies_spec none
  have h2 := C8_extract_dependencies_spec (some gDemo)
  exact ⟨h.1 _ rfl,
    fun x => h2.2.1 _ "profit" "revenue" rfl rfl rfl x,
    h.2.2 _ "orders.revenue" rfl rfl (by decide) (by decide) (by decide)⟩

/-- C5 (counterexample): the auto-join alias for the model `Customers` is
its first character `"C"` verbatim, not the lowercased `"c"` the claim
states: rewriting `SELECT Customers.country FROM orders` aliases the joined
table as `C`. -/
theorem C5_counterexample :
    (rewrite_select gDemoU qUpperJoin).map
      (fun out => out.joins.map (fun (j : Join) =>
        match j.this with
        | .table t => t.alias_
        | _ => none)) = .ok [some "C"] ∧ ("C" : String) ≠ "c" :=
  ⟨rfl, by decide⟩

/-- C5 (amended): the alias the rewriter assigns to every auto-joined model
is the first character of the model name verbatim (`'t'` for an empty name),
with no lowercasing: `rewrite_select` extends its `(model, alias)` pairs via
`extend_model_refs`. -/
theorem C5_extend_model_refs_amended (refs : List (String × String))
    (ms : List String) (m : String) (hm : m ∈ ms) :
    (m, String.mk [m.data.headD 't']) ∈ extend_model_refs refs ms := by
  unfold extend_model_refs autoJoinAlias
  exact List.mem_append_right _ (List.mem_map_of_mem _ hm)

/-- C5 (witness): the pair recorded for auto-joining `Customers` carries the
verbatim first character. -/
theorem C5_witness :
    ("Customers", "C") ∈ extend_model_refs [("orders", "orders")] ["Customers"] := by
  have h := C5_extend_model_refs_amended [("orders", "orders")] ["Customers"]
    "Customers" (by simp)
  exact h

/-- C2 (counterexample): `SELECT 1 FROM orders` contains no qualified
reference to any model, yet it is not passed through unchanged — the FROM
table is rewritten to the model's physical `public.orders` — because the
passthrough test looks at the FROM clause, not at qualified references. -/
theorem C2_counterexample :
    find_referenced_models gDemo qLiteralFromOrders.expressions = [] ∧
    qLiteralFromOrders.where_clause = none ∧
    rewrite_select gDemo qLiteralFromOrders ≠ .ok qLiteralFromOrders := by
  refine ⟨rfl, rfl, ?_⟩
  intro h
  have h2 := congrArg (fun r : Except SidemanticError Select =>
    match r with
    | .ok out => out.from_
    | .error _ => none) h
  have h3 : (some { expressions :=
        [.table { schema := some "public", name := "orders" }] } : Option From) =
      some { expressions := [.table { name := "orders" }] } := h2
  simp at h3

/-- C2 (amended): whenever no FROM table reference names a model of the
graph, `rewrite_select` returns the select unchanged, and is therefore
idempotent on such queries. -/
theorem C2_passthrough_amended (g : SemanticGraph) (s : Select)
    (h : find_model_references g s.from_ = []) :
    rewrite_select g s = .ok s ∧
    (rewrite_select g s).bind (fun s2 => rewrite_select g s2) =
      rewrite_select g s := by
  have h1 : rewrite_select g s = .ok s := by
    simp [rewrite_select, h]
  refine ⟨h1, ?_⟩
  rw [h1]
  exact h1

/-- C2 (witness): `SELECT x FROM t` over the empty graph is passed through
and a second rewrite changes nothing. -/
theorem C2_witness :
    rewrite_select SemanticGraph.new qPlain = .ok qPlain ∧
    (rewrite_select SemanticGraph.new qPlain).bind
      (fun s2 => rewrite_select SemanticGraph.new s2) =
      rewrite_select SemanticGraph.new qPlain :=
  C2_passthrough_amended SemanticGraph.new qPlain rfl

/-- C9 (counterexample): the dependency graph of `metricsC9` is `a → b`,
`b → b`; the only cycle is at `b`, nothing points back to `a`, yet the
failure message names `a` — the listed root from which the cycle was
reached, not a metric on the cycle. -/
theorem C9_counterexample :
    check_circular_dependencies metricsC9 SemanticGraph.new =
      .error "Circular dependency detected involving metric 'a'" ∧
    ¬ Relation.TransGen
        (depEdge (build_dep_adj metricsC9 SemanticGraph.new)) "a" "a" := by
  refine ⟨rfl, ?_⟩
  have hno : ∀ x : String,
      ¬ depEdge (build_dep_adj metricsC9 SemanticGraph.new) x "a" := by
    intro x
    unfold depEdge depAdjL alistGet
    rw [show build_dep_adj metricsC9 SemanticGraph.new =
      [("a", ["b"]), ("b", ["b"])] from rfl]
    by_cases h1 : ("a" : String) = x
    · subst h1
      decide
    · by_cases h2 : ("b" : String) = x
      · subst h2
        decide
      · have e1 : (("a" : String) == x) = false := by simpa using h1
        have e2 : (("b" : String) == x) = false := by simpa using h2
        simp [List.find?, e1, e2]
  intro h
  obtain ⟨x, -, hedge⟩ := Relation.TransGen.tail'_iff.mp h
  exact hno x hedge

/-- C9 (amended): `check_circular_dependencies` succeeds exactly when the
dependency graph over metric names (edges given by `extract_dependencies`
with the graph) has no directed cycle reachable from the listed metrics; in
particular chains ending at names with no entry are not cycles.  On failure
the error message names a listed metric from which a cycle is reachable
(not necessarily a metric on the cycle). -/
theorem C9_check_circular_amended (metrics : List (String × Metric))
    (g : SemanticGraph) :
    (check_circular_dependencies metrics g = .ok () ↔
      ∀ name ∈ metrics.map (·.1),
        ¬ CycleReachable (build_dep_adj metrics g) name) ∧
    (∀ msg, check_circular_dependencies metrics g = .error msg →
      ∃ name ∈ metrics.map (·.1),
        CycleReachable (build_dep_adj metrics g) name ∧
        msg = "Circular dependency detected involving metric '" ++ name ++ "'") := by
  have hInv0 : DepInv (build_dep_adj metrics g) [] [] :=
    ⟨fun x hx => absurd hx (List.not_mem_nil x),
     fun x hx => absurd hx (List.not_mem_nil x)⟩
  have hspec := check_loop_spec (build_dep_adj metrics g) (metrics.map (·.1)) []
    hInv0 (roots_mem_dep_nodes metrics g)
  have hdef : check_circular_dependencies metrics g =
      check_loop (build_dep_adj metrics g) (dfsFuel (build_dep_adj metrics g))
        (metrics.map (·.1)) [] := rfl
  rw [← hdef] at hspec
  constructor
  · constructor
    · intro hok
      rw [hok] at hspec
      exact hspec
    · intro hnc
      rcases hres : check_circular_dependencies metrics g with msg | u
      · rw [hres] at hspec
        obtain ⟨n, hn, hc, -⟩ := hspec
        exact absurd hc (hnc n hn)
      · cases u
        rfl
  · intro msg hmsg
    rw [hmsg] at hspec
    exact hspec

/-- C9 (witness): the amended failure behaviour at the concrete two-metric
cycle graph. -/
theorem C9_witness :
    ∃ name ∈ metricsC9.map (·.1),
      CycleReachable (build_dep_adj metricsC9 SemanticGraph.new) name ∧
      "Circular dependency detected involving metric 'a'" =
        "Circular dependency detected involving metric '" ++ name ++ "'" :=
  (C9_check_circular_amended metricsC9 SemanticGraph.new).2
    "Circular dependency detected involving metric 'a'" rfl

/-- C10: on a graph whose adjacency index is the one rebuilt from its models
(the invariant `add_model` maintains), every relationship also induces the
reverse adjacency edge with the kind inverted, so the adjacency step relation
is symmetric; `find_join_path` performs an unweighted BFS returning walks of
minimal length, hence whenever it succeeds in both directions the two paths
have equal length. -/
theorem C10_join_path_length_symm (g : SemanticGraph)
    (hadj : g.adjacency = rebuild_adjacency g.models) (a b : String)
    (p q : JoinPath)
    (hab : g.find_join_path a b = .ok p)
    (hba : g.find_join_path b a = .ok q) :
    p.steps.length = q.steps.length := by
  unfold SemanticGraph.find_join_path at hab hba
  by_cases h0 : a = b
  · subst h0
    rw [if_pos (by simp)] at hab hba
    simp only [Except.ok.injEq] at hab hba
    rw [← hab, ← hba]
  · have hb0 : ¬ (b = a) := fun hh => h0 hh.symm
    rw [if_neg (by simpa using h0)] at hab
    rw [if_neg (by simpa using hb0)] at hba
    cases hma : (alistGet g.models a).isNone with
    | true =>
      rw [hma] at hab
      simp at hab
    | false =>
    cases hmb : (alistGet g.models b).isNone with
    | true =>
      rw [hma, hmb] at hab
      simp at hab
    | false =>
    rw [hma, hmb] at hab hba
    simp only [Bool.false_eq_true, if_false] at hab hba
    rcases hbfs1 : bfs g b g.bfsFuel [a] [(a, [])] with - | (- | steps1)
    · rw [hbfs1] at hab
      simp at hab
    · rw [hbfs1] at hab
      simp at hab
    · rw [hbfs1] at hab
      simp only [Except.ok.injEq] at hab
      rcases hbfs2 : bfs g a g.bfsFuel [b] [(b, [])] with - | (- | steps2)
      · rw [hbfs2] at hba
        simp at hba
      · rw [hbfs2] at hba
        simp at hba
      · rw [hbfs2] at hba
        simp only [Except.ok.injEq] at hba
        subst hab
        subst hba
        obtain ⟨hex1, hmin1⟩ := bfs_min g b a g.bfsFuel [a] [(a, [])]
          (bfsInv_init g a) steps1 hbfs1
        obtain ⟨hex2, hmin2⟩ := bfs_min g a b g.bfsFuel [b] [(b, [])]
          (bfsInv_init g b) steps2 hbfs2
        have hle1 : steps2.length ≤ steps1.length :=
          hmin2 steps1.length (adjPathLen_symm g hadj steps1.length a b hex1)
        have hle2 : steps1.length ≤ steps2.length :=
          hmin1 steps2.length (adjPathLen_symm g hadj steps2.length b a hex2)
        show steps1.length = steps2.length
        omega

/-- C10 (witness): the demo graph, whose single relationship `orders →
customers` induces the reverse edge, yields one-step join paths of equal
length in both directions. -/
theorem C10_witness :
    gDemo.adjacency = rebuild_adjacency gDemo.models ∧
    gDemo.find_join_path "orders" "customers" =
      .ok { steps := [{ from_model := "orders", to_model := "customers",
                        from_key := "customers_id", to_key := "id",
                        relationship_type := .ManyToOne }] } ∧
    gDemo.find_join_path "customers" "orders" =
      .ok { steps := [{ from_model := "customers", to_model := "orders",
                        from_key := "id", to_key := "customers_id",
                        relationship_type := .OneToMany }] } ∧
    ({ steps := [{ from_model := "orders", to_model := "customers",
                   from_key := "customers_id", to_key := "id",
                   relationship_type := .ManyToOne }] } : JoinPath).steps.length =
      ({ steps := [{ from_model := "customers", to_model := "orders",
                     from_key := "id", to_key := "customers_id",
                     relationship_type := .OneToMany }] } : JoinPath).steps.length :=
  ⟨rfl, rfl, rfl,
    C10_join_path_length_symm gDemo rfl "orders" "customers" _ _ rfl rfl⟩

end Sidemantic
